import Mathlib

/-!
# Red-black SOR over MPI: a shallow embedding of `red_black_mpi.c`

The development follows `src/a4/heat_transfer/red_black/mpi/red_black_mpi.c`.

* C `int` values are integers of `ℤ`; `/` and `%` are the truncating
  `Int.tdiv` and `Int.tmod` of C.  The products of lines 84 and 116, which can
  leave the range of a 32-bit `int`, wrap around (`wrap32`, two's complement).
* `double` values are rationals (`ℚ`), arithmetic taken exactly.
* A process's memory is a map from buffer address to a grid of cells, so that
  the two buffers `u_previous` and `u_current` may or may not alias.
* The processes of the Cartesian communicator are indexed by their grid
  coordinates `(pr, pc)`; a family gives every process its memory.
-/

namespace RedBlackMPI

/-! ## Loops -/

/-- The C loop `for (i = lo; i < hi; i++) s = body i s`. -/
def forLoop {σ : Type} (lo hi : ℤ) (body : ℤ → σ → σ) (s : σ) : σ :=
  (List.range (hi - lo).toNat).foldl (fun s (k : ℕ) => body (lo + (k : ℤ)) s) s

/-! ## Machine integers -/

/-- The value a 32-bit two's complement `int` holds after a result `x` computed
in the integers: `x` reduced modulo `2^32` into `[-2^31, 2^31)`. -/
def wrap32 (x : ℤ) : ℤ := (x + 2147483648) % 4294967296 - 2147483648

/-- The `int` product `a * b`. -/
def mulInt (a b : ℤ) : ℤ := wrap32 (a * b)

/-- The `int` sum `a + b`. -/
def addInt (a b : ℤ) : ℤ := wrap32 (a + b)

/-! ## Domain partitioner (`main`, lines 78-86) -/

/-- One round of the loop at lines 78-86 for one axis: the pair
`(local[i], global_padded[i])` computed from `global[i]` and `grid[i]`.  The
quotient plus one of line 83 stays in range (the branch needs `grid ≥ 2`); the
product `local[i] * grid[i]` of line 84 is an `int` product. -/
def partition (global grid : ℤ) : ℤ × ℤ :=
  if global.tmod grid = 0 then
    (global.tdiv grid, global)
  else
    (global.tdiv grid + 1, mulInt (global.tdiv grid + 1) grid)

/-- The value of `local[i]`. -/
def localDim (global grid : ℤ) : ℤ := (partition global grid).1

/-- The value of `global_padded[i]`. -/
def paddedDim (global grid : ℤ) : ℤ := (partition global grid).2

/-- The relaxation factor of line 88, `2.0 / (1 + sin(3.14 / global[0]))`,
over a field `K` standing for `double`.  The sine of the C library is a
parameter. -/
def omegaOf {K : Type} [Field K] (sin : K → K) (global0 : ℤ) : K :=
  2 / (1 + sin (3.14 / (global0 : K)))

/-- The values `main` derives from its four arguments before any
communication: `local`, `global_padded` (lines 78-86) and `omega` (line 88). -/
structure Setup (K : Type) where
  local0 : ℤ
  local1 : ℤ
  global_padded0 : ℤ
  global_padded1 : ℤ
  omega : K

/-- Lines 78-88 of `main`, from `global[0]`, `global[1]`, `grid[0]`, `grid[1]`. -/
def setup {K : Type} [Field K] (sin : K → K) (global0 global1 grid0 grid1 : ℤ) : Setup K :=
  { local0 := localDim global0 grid0
    local1 := localDim global1 grid1
    global_padded0 := paddedDim global0 grid0
    global_padded1 := paddedDim global1 grid1
    omega := omegaOf sin global0 }

/-! ## Sweep bounds (`main`, lines 144-162) -/

/-- The pair `(i_min, i_max)` of lines 146-153 (and `(j_min, j_max)` of lines
155-162) for one axis.  `lowNull` says that the neighbour towards index 0 (north
or west) is `MPI_PROC_NULL`, `highNull` the same for south or east. -/
def sweepBounds (loc padded global : ℤ) (lowNull highNull : Bool) : ℤ × ℤ :=
  let i_min : ℤ := 1
  let i_max : ℤ := loc + 1
  let i_min := if lowNull then 2 else i_min
  let i_max := if highNull then i_max - ((padded - global) + 1) else i_max
  (i_min, i_max)

/-- The sweep bounds along one axis of the process at coordinate `coord` of a
non-periodic axis of `grid` processes: `MPI_Cart_shift` gives `MPI_PROC_NULL`
towards index 0 exactly at `coord = 0`, and towards the far end exactly at
`coord = grid - 1`. -/
def boundsAt (global grid coord : ℤ) : ℤ × ℤ :=
  sweepBounds (localDim global grid) (paddedDim global grid) global
    (decide (coord = 0)) (decide (coord = grid - 1))

/-- The valid length of one axis at the process of coordinate `coord`, read off
the sweep bound the code computes at lines 146-162: a process with a neighbour
towards the far end sweeps up to its last interior row, so `i_max - 1` rows are
valid; the process without one stops before its last valid row, the physical
boundary row `i_max` that the trimming of lines 152 and 161 leaves. -/
def validLen (global grid coord : ℤ) : ℤ :=
  (boundsAt global grid coord).2 - (if coord = grid - 1 then 0 else 1)

/-- The number of real rows a tile holds: interior row `1 + r` of the process at
`coord` is row `coord * local + r` of the global array (the block layout of the
scatter), real when below `global`. -/
def realLen (global grid coord : ℤ) : ℕ :=
  ((List.range (localDim global grid).toNat).filter
    (fun (r : ℕ) => decide (coord * localDim global grid + (r : ℤ) < global))).length

/-! ## Memory -/

/-- A two-dimensional array of doubles, addressed as `u[i][j]`. -/
abbrev Grid := ℤ → ℤ → ℚ

/-- The memory of one process: buffer address to contents. -/
abbrev Mem := ℕ → Grid

/-- The assignment `buf[i][j] = v`. -/
def Mem.write (m : Mem) (buf : ℕ) (i j : ℤ) (v : ℚ) : Mem :=
  fun b a c => if b = buf ∧ a = i ∧ c = j then v else m b a c

/-- The memories of all processes, by Cartesian coordinates `(pr, pc)`. -/
abbrev Family := ℕ → ℕ → Mem

/-- A sample memory: cell `(i, j)` of buffer `b` holds `b + i * j`. -/
def sampleMem : Mem := fun b i j => (b : ℚ) + (i : ℚ) * (j : ℚ)

/-- A sample memory without arithmetic: every buffer holds 0 in column 0 and 1
elsewhere. -/
def stepMem : Mem := fun _ _ j => if j = 0 then 0 else 1

/-! ## The SOR kernel (lines 8-38) -/

/-- The function `RedSOR` of lines 8-22, on the memory `m` of the calling process. -/
def RedSOR (m : Mem) (u_previous u_current : ℕ) (X_min X_max Y_min Y_max : ℤ)
    (omega : ℚ) : Mem :=
  forLoop X_min X_max (fun i m =>
    forLoop Y_min Y_max (fun j m =>
      if (i + j).tmod 2 = 0 then
        m.write u_current i j
          (m u_previous i j
            + (omega / 4)
              * (m u_previous (i - 1) j + m u_previous (i + 1) j
                 + m u_previous i (j - 1) + m u_previous i (j + 1)
                 - 4 * m u_previous i j))
      else m) m) m

/-- The function `BlackSOR` of lines 24-38, on the memory `m` of the calling process. -/
def BlackSOR (m : Mem) (u_previous u_current : ℕ) (X_min X_max Y_min Y_max : ℤ)
    (omega : ℚ) : Mem :=
  forLoop X_min X_max (fun i m =>
    forLoop Y_min Y_max (fun j m =>
      if (i + j).tmod 2 = 1 then
        m.write u_current i j
          (m u_previous i j
            + (omega / 4)
              * (m u_current (i - 1) j + m u_current (i + 1) j
                 + m u_current i (j - 1) + m u_current i (j + 1)
                 - 4 * m u_previous i j))
      else m) m) m

/-- The stencil value both sweeps assign: the centre comes from `prev`, the four
neighbours from `nb`. -/
def stencil (omega : ℚ) (prev nb : Grid) (i j : ℤ) : ℚ :=
  prev i j + (omega / 4)
    * (nb (i - 1) j + nb (i + 1) j + nb i (j - 1) + nb i (j + 1) - 4 * prev i j)

/-- The shape the two sweeps share: the cells of the bounds that satisfy `cond`
are assigned `f` of the memory at that moment, row by row. -/
def sweep (c : ℕ) (cond : ℤ → ℤ → Prop) [∀ i j, Decidable (cond i j)]
    (f : Mem → ℤ → ℤ → ℚ) (X_min X_max Y_min Y_max : ℤ) (m : Mem) : Mem :=
  forLoop X_min X_max (fun i m =>
    forLoop Y_min Y_max (fun j m =>
      if cond i j then m.write c i j (f m i j) else m) m) m

/-! ## Halo exchange (lines 178-193 and 207-222) -/

/-- The contiguous send buffer `&u[row][1]`: element `k` is `u[row][1 + k]`. -/
def rowMsg (m : Mem) (u : ℕ) (row : ℤ) : ℤ → ℚ := fun k => m u row (1 + k)

/-- The strided send buffer `&u[1][col]` of type `column`: element `k` is
`u[1 + k][col]`. -/
def colMsg (m : Mem) (u : ℕ) (col : ℤ) : ℤ → ℚ := fun k => m u (1 + k) col

/-- Receiving `count` doubles into `&u[row][1]`. -/
def recvRow (m : Mem) (u : ℕ) (row count : ℤ) (msg : ℤ → ℚ) : Mem :=
  fun b a c => if b = u ∧ a = row ∧ 1 ≤ c ∧ c ≤ count then msg (c - 1) else m b a c

/-- Receiving one `column` (`count` doubles, one per row) into `&u[1][col]`. -/
def recvCol (m : Mem) (u : ℕ) (col count : ℤ) (msg : ℤ → ℚ) : Mem :=
  fun b a c => if b = u ∧ c = col ∧ 1 ≤ a ∧ a ≤ count then msg (a - 1) else m b a c

/-- The memory of process `(pr, pc)` after its first `MPI_Sendrecv` (with
north).  The process has a northern neighbour unless `pr = 0`.  What it receives
is what `(pr - 1, pc)` sends in its own exchange with south, its second
`MPI_Sendrecv`: the row `local[0]` of its memory at that point. -/
def afterNorth (local0 local1 : ℤ) (u : ℕ) (F : Family) : ℕ → ℕ → Mem
  | 0, pc => F 0 pc
  | pr + 1, pc =>
    recvRow (F (pr + 1) pc) u 0 local1
      (rowMsg (afterNorth local0 local1 u F pr pc) u local0)

/-- The memory of process `(pr, pc)` after its second `MPI_Sendrecv` (with
south), present when `pr + 1 < Px`.  The neighbour `(pr + 1, pc)` sends its row 1
in its first `MPI_Sendrecv`, from its memory on entry. -/
def afterSouth (Px : ℕ) (local0 local1 : ℤ) (u : ℕ) (F : Family) (pr pc : ℕ) : Mem :=
  if pr + 1 < Px then
    recvRow (afterNorth local0 local1 u F pr pc) u (local0 + 1) local1
      (rowMsg (F (pr + 1) pc) u 1)
  else
    afterNorth local0 local1 u F pr pc

/-- The memory after the third `MPI_Sendrecv` (with east) of the process that has
`k` processes to its east.  The neighbour `(pr, pc + 1)` sends its column 1 in
its fourth `MPI_Sendrecv`, from its memory after its own exchange with east. -/
def afterEastFrom (Px : ℕ) (local0 local1 : ℤ) (u : ℕ) (F : Family) (pr : ℕ) :
    ℕ → ℕ → Mem
  | 0, pc => afterSouth Px local0 local1 u F pr pc
  | k + 1, pc =>
    recvCol (afterSouth Px local0 local1 u F pr pc) u (local1 + 1) local0
      (colMsg (afterEastFrom Px local0 local1 u F pr k (pc + 1)) u 1)

/-- The memory of process `(pr, pc)` after its third `MPI_Sendrecv`. -/
def afterEast (Px Py : ℕ) (local0 local1 : ℤ) (u : ℕ) (F : Family) (pr pc : ℕ) : Mem :=
  afterEastFrom Px local0 local1 u F pr (Py - 1 - pc) pc

/-- The memory of process `(pr, pc)` after its fourth `MPI_Sendrecv` (with west),
present unless `pc = 0`.  The neighbour `(pr, pc - 1)` sends its column
`local[1]` in its third `MPI_Sendrecv`, from its memory after its exchange with
south. -/
def afterWest (Px Py : ℕ) (local0 local1 : ℤ) (u : ℕ) (F : Family) : ℕ → ℕ → Mem
  | pr, 0 => afterEast Px Py local0 local1 u F pr 0
  | pr, pc + 1 =>
    recvCol (afterEast Px Py local0 local1 u F pr (pc + 1)) u 0 local0
      (colMsg (afterSouth Px local0 local1 u F pr pc) u local1)

/-- One exchange round on buffer `u` (lines 178-193 with `u = u_previous`, lines
207-222 with `u = u_current`), run by every process of the `Px × Py` grid. -/
def exchange (Px Py : ℕ) (local0 local1 : ℤ) (u : ℕ) (F : Family) : Family :=
  fun pr pc => afterWest Px Py local0 local1 u F pr pc

/-- The exchange round as the specification words it: every process with a
neighbour on a side receives that neighbour's facing interior edge into its
ghost ring, all at once from the tiles on entry; a side without neighbour is
untouched. -/
def exchangeSpec (Px Py : ℕ) (local0 local1 : ℤ) (u : ℕ) (F : Family) : Family :=
  fun pr pc b a c =>
    if b = u ∧ 0 < pc ∧ c = 0 ∧ 1 ≤ a ∧ a ≤ local0 then F pr (pc - 1) u a local1
    else if b = u ∧ pc + 1 < Py ∧ c = local1 + 1 ∧ 1 ≤ a ∧ a ≤ local0 then
      F pr (pc + 1) u a 1
    else if b = u ∧ pr + 1 < Px ∧ a = local0 + 1 ∧ 1 ≤ c ∧ c ≤ local1 then
      F (pr + 1) pc u 1 c
    else if b = u ∧ 0 < pr ∧ a = 0 ∧ 1 ≤ c ∧ c ≤ local1 then F (pr - 1) pc u local0 c
    else F pr pc b a c

/-- The ghost-ring copy of lines 195-202. -/
def ghostCopy (m : Mem) (u_previous u_current : ℕ) (local0 local1 : ℤ) : Mem :=
  let m := forLoop 0 (local0 + 2) (fun i m =>
    let m := m.write u_current i 0 (m u_previous i 0)
    m.write u_current i (local1 + 1) (m u_previous i (local1 + 1))) m
  forLoop 0 (local1 + 2) (fun j m =>
    let m := m.write u_current 0 j (m u_previous 0 j)
    m.write u_current (local0 + 1) j (m u_previous (local0 + 1) j)) m

/-- The halo-exchange step that opens an iteration (lines 178-202): the exchange
round on `u_previous`, then the ghost-ring copy into `u_current`. -/
def haloStep (Px Py : ℕ) (local0 local1 : ℤ) (u_previous u_current : ℕ) (F : Family) :
    Family :=
  fun pr pc =>
    ghostCopy (exchange Px Py local0 local1 u_previous F pr pc) u_previous u_current
      local0 local1

/-! ## Scatter and gather (lines 98-129 and 248-256) -/

/-- The index `i * grid[1] + j` of lines 115-116, in `int` arithmetic. -/
def tableIndex (grid1 i j : ℤ) : ℤ := addInt (mulInt i grid1) j

/-- The offset `local[0] * local[1] * grid[1] * i + local[1] * j` of line 116,
in `int` arithmetic, products taken from the left. -/
def offsetOf (local0 local1 grid1 i j : ℤ) : ℤ :=
  addInt (mulInt (mulInt (mulInt local0 local1) grid1) i) (mulInt local1 j)

/-- The tables `scattercounts` and `scatteroffset` as built by lines 113-118,
from their content `init` after `malloc`. -/
def buildTables (local0 local1 grid0 grid1 : ℤ) (init : (ℤ → ℤ) × (ℤ → ℤ)) :
    (ℤ → ℤ) × (ℤ → ℤ) :=
  forLoop 0 grid0 (fun i t =>
    forLoop 0 grid1 (fun j t =>
      (Function.update t.1 (tableIndex grid1 i j) 1,
       Function.update t.2 (tableIndex grid1 i j)
        (offsetOf local0 local1 grid1 i j))) t) init

/-- The linear indices, relative to displacement 0, of the elements of
`MPI_Type_vector(count, blocklen, stride, MPI_DOUBLE)` in type-map order. -/
def typeVector (count blocklen stride : ℤ) : List ℤ :=
  (List.range count.toNat).flatMap (fun (r : ℕ) =>
    (List.range blocklen.toNat).map (fun (c : ℕ) => (r : ℤ) * stride + (c : ℤ)))

/-- The elements of the global array that one entry of the transfer table
covers: `counts` blocks of type `global_block` (resized to the extent of one
double) at displacement `displ`. -/
def coveredBy (counts displ local0 local1 stride : ℤ) : List ℤ :=
  (List.range counts.toNat).flatMap (fun (n : ℕ) =>
    (typeVector local0 local1 stride).map (fun d => displ + (n : ℤ) + d))

/-- What `MPI_Scatterv` stores in buffer `u` of one process: element `(r, c)` of
`global_block` at displacement `displ` of the flat global array `U` goes to
element `(r, c)` of `local_block` at `&u[1][1]`, the cell `u[1 + r][1 + c]`. -/
def scatterBlock (U : ℤ → ℚ) (displ stride local0 local1 : ℤ) (m : Mem) (u : ℕ) : Mem :=
  forLoop 0 local0 (fun r m =>
    forLoop 0 local1 (fun c m =>
      m.write u (1 + r) (1 + c) (U (displ + r * stride + c))) m) m

/-- What `MPI_Gatherv` stores in the flat global array from one process. -/
def gatherBlock (m : Mem) (u : ℕ) (displ stride local0 local1 : ℤ) (U : ℤ → ℚ) : ℤ → ℚ :=
  forLoop 0 local0 (fun r U =>
    forLoop 0 local1 (fun c U =>
      Function.update U (displ + r * stride + c) (m u (1 + r) (1 + c))) U) U

/-- The scatter of lines 126-129 into buffer `u`: the process of rank
`pr * grid[1] + pc` has coordinates `(pr, pc)`. -/
def scatterv (U : ℤ → ℚ) (scatteroffset : ℤ → ℤ) (grid1 stride local0 local1 : ℤ)
    (u : ℕ) (F : Family) : Family :=
  fun pr pc =>
    scatterBlock U (scatteroffset ((pr : ℤ) * grid1 + (pc : ℤ))) stride local0 local1
      (F pr pc) u

/-- The gather of lines 255-256 from buffer `u`, ranks taken in increasing
order. -/
def gatherv (F : Family) (u : ℕ) (scatteroffset : ℤ → ℤ)
    (grid0 grid1 stride local0 local1 : ℤ) (U : ℤ → ℚ) : ℤ → ℚ :=
  forLoop 0 grid0 (fun i U =>
    forLoop 0 grid1 (fun j U =>
      gatherBlock (F i.toNat j.toNat) u (scatteroffset (i * grid1 + j)) stride
        local0 local1 U) U) U

/-! ## Facts about the partitioner -/

theorem one_le_prod (a b : ℤ) (ha : 1 ≤ a) (hb : 1 ≤ b) : 1 ≤ a * b := by
  nlinarith [mul_nonneg (sub_nonneg.2 ha) (sub_nonneg.2 hb)]

theorem fits_axes (a b N : ℤ) (ha : 1 ≤ a) (hb : 1 ≤ b) (h : a * b ≤ N) :
    a ≤ N ∧ b ≤ N := by
  have h1 : a ≤ a * b := le_mul_of_one_le_right (by omega) hb
  have h2 : b ≤ a * b := le_mul_of_one_le_left (by omega) ha
  exact ⟨by omega, by omega⟩

theorem wrap32_of_fits (x : ℤ) (h0 : -2147483648 ≤ x) (h1 : x ≤ 2147483647) :
    wrap32 x = x := by
  unfold wrap32
  omega

theorem partition_cases (global grid : ℤ) (hg : 1 ≤ global) (hp : 1 ≤ grid) :
    (global % grid = 0 ∧ localDim global grid = global / grid ∧
        paddedDim global grid = global) ∨
    (global % grid ≠ 0 ∧ localDim global grid = global / grid + 1 ∧
        paddedDim global grid = wrap32 ((global / grid + 1) * grid)) := by
  have h0 : (0 : ℤ) ≤ global := by omega
  have h1 : (0 : ℤ) ≤ grid := by omega
  unfold localDim paddedDim partition mulInt
  rw [Int.tmod_eq_emod h0 h1, Int.tdiv_eq_ediv h0 h1]
  by_cases h : global % grid = 0
  · left; simp [h]
  · right; simp [h]

theorem localDim_ge (global grid : ℤ) (hg : 1 ≤ global) (hp : 1 ≤ grid) :
    global ≤ grid * localDim global grid := by
  have hd := Int.emod_add_ediv global grid
  have hlt := Int.emod_lt_of_pos global (show (0 : ℤ) < grid by omega)
  rcases partition_cases global grid hg hp with ⟨h, hl, _⟩ | ⟨_, hl, _⟩
  · rw [hl]; rw [h] at hd; linarith
  · rw [hl]; linarith

theorem localDim_lt (global grid : ℤ) (hg : 1 ≤ global) (hp : 1 ≤ grid) :
    grid * (localDim global grid - 1) < global := by
  have hd := Int.emod_add_ediv global grid
  have hnn := Int.emod_nonneg global (show grid ≠ 0 by omega)
  rcases partition_cases global grid hg hp with ⟨h, hl, _⟩ | ⟨h, hl, _⟩
  · rw [hl]; rw [h] at hd
    have : grid * (global / grid - 1) = grid * (global / grid) - grid := by ring
    omega
  · rw [hl]
    have : grid * (global / grid + 1 - 1) = grid * (global / grid) := by ring
    have : 0 < global % grid := lt_of_le_of_ne hnn (Ne.symm h)
    omega

theorem localDim_pos (global grid : ℤ) (hg : 1 ≤ global) (hp : 1 ≤ grid) :
    1 ≤ localDim global grid := by
  have h := localDim_ge global grid hg hp
  by_contra hc
  have : localDim global grid ≤ 0 := by omega
  have : grid * localDim global grid ≤ 0 :=
    mul_nonpos_of_nonneg_of_nonpos (by omega) this
  omega

/-- When `grid * local` fits an `int`, the padded dimension is that product. -/
theorem paddedDim_eq (global grid : ℤ) (hg : 1 ≤ global) (hp : 1 ≤ grid)
    (hfit : grid * localDim global grid ≤ 2147483647) :
    paddedDim global grid = grid * localDim global grid := by
  have hloc := localDim_pos global grid hg hp
  have hnn : 0 ≤ grid * localDim global grid := mul_nonneg (by omega) (by omega)
  rcases partition_cases global grid hg hp with ⟨h, hl, hpad⟩ | ⟨_, hl, hpad⟩
  · rw [hl, hpad]
    have := Int.emod_add_ediv global grid
    rw [h] at this
    linarith
  · rw [hpad, ← hl, mul_comm, wrap32_of_fits _ (by omega) hfit]

/-! ## Loop rules -/

theorem forLoop_prefix {σ : Type} (P : ℕ → σ → Prop) (lo hi : ℤ) (body : ℤ → σ → σ) (s : σ)
    (h0 : P 0 s)
    (hstep : ∀ (n : ℕ) (t : σ), lo + (n : ℤ) < hi → P n t → P (n + 1) (body (lo + (n : ℤ)) t)) :
    P (hi - lo).toNat (forLoop lo hi body s) := by
  unfold forLoop
  have key : ∀ n : ℕ, n ≤ (hi - lo).toNat →
      P n ((List.range n).foldl (fun s (k : ℕ) => body (lo + (k : ℤ)) s) s) := by
    intro n
    induction n with
    | zero => intro _; simpa using h0
    | succ n ih =>
      intro hn
      rw [List.range_succ, List.foldl_append]
      simp only [List.foldl_cons, List.foldl_nil]
      exact hstep n _ (by omega) (ih (by omega))
  exact key _ le_rfl

/-- An invariant kept by every round of a loop holds after the loop. -/
theorem forLoop_inv {σ : Type} (P : σ → Prop) (lo hi : ℤ) (body : ℤ → σ → σ) (s : σ)
    (hstep : ∀ (i : ℤ) (t : σ), lo ≤ i → i < hi → P t → P (body i t))
    (h0 : P s) : P (forLoop lo hi body s) :=
  forLoop_prefix (fun _ t => P t) lo hi body s h0
    (fun n t hn ht => hstep _ t (by omega) hn ht)

/-- A property that round `i₀` establishes and every round keeps, under an
invariant `R`, holds after the loop. -/
theorem forLoop_hit {σ : Type} (R Q : σ → Prop) (lo hi : ℤ) (body : ℤ → σ → σ) (s : σ)
    (i₀ : ℤ) (hlo : lo ≤ i₀) (hhi : i₀ < hi)
    (hR : ∀ (i : ℤ) (t : σ), lo ≤ i → i < hi → R t → R (body i t))
    (hQ : ∀ (i : ℤ) (t : σ), lo ≤ i → i < hi → R t → Q t → Q (body i t))
    (hit : ∀ t : σ, R t → Q (body i₀ t))
    (h0 : R s) : Q (forLoop lo hi body s) := by
  have h := forLoop_prefix (fun n t => R t ∧ (i₀ - lo < (n : ℤ) → Q t)) lo hi body s
    ⟨h0, fun h => by omega⟩
    (fun n t hn ht => by
      refine ⟨hR _ t (by omega) hn ht.1, fun hlt => ?_⟩
      by_cases hc : i₀ - lo < (n : ℤ)
      · exact hQ _ t (by omega) hn ht.1 (ht.2 hc)
      · have : lo + (n : ℤ) = i₀ := by omega
        rw [this]; exact hit t ht.1)
  exact h.2 (by omega)

/-! ## The sweeps in closed form -/

theorem RedSOR_eq_sweep (m : Mem) (p c : ℕ) (X_min X_max Y_min Y_max : ℤ) (omega : ℚ) :
    RedSOR m p c X_min X_max Y_min Y_max omega =
      sweep c (fun i j => (i + j).tmod 2 = 0)
        (fun m i j => stencil omega (m p) (m p) i j) X_min X_max Y_min Y_max m := rfl

theorem BlackSOR_eq_sweep (m : Mem) (p c : ℕ) (X_min X_max Y_min Y_max : ℤ) (omega : ℚ) :
    BlackSOR m p c X_min X_max Y_min Y_max omega =
      sweep c (fun i j => (i + j).tmod 2 = 1)
        (fun m i j => stencil omega (m p) (m c) i j) X_min X_max Y_min Y_max m := rfl

/-- A sweep whose assigned value does not depend on the cells the sweep itself
writes equals the simultaneous update. -/
theorem sweep_apply (c : ℕ) (cond : ℤ → ℤ → Prop) [∀ i j, Decidable (cond i j)]
    (f : Mem → ℤ → ℤ → ℚ) (X_min X_max Y_min Y_max : ℤ) (m : Mem)
    (hf : ∀ i j, cond i j → ∀ m' : Mem,
      (∀ b a d, ¬(b = c ∧ cond a d) → m' b a d = m b a d) → f m' i j = f m i j)
    (b : ℕ) (i j : ℤ) :
    sweep c cond f X_min X_max Y_min Y_max m b i j =
      if b = c ∧ X_min ≤ i ∧ i < X_max ∧ Y_min ≤ j ∧ j < Y_max ∧ cond i j then f m i j
      else m b i j := by
  -- every cell is either untouched or holds the simultaneous value
  let Inv : Mem → Prop := fun m' => ∀ b a d, m' b a d = m b a d ∨
    (b = c ∧ cond a d ∧ (X_min ≤ a ∧ a < X_max ∧ Y_min ≤ d ∧ d < Y_max) ∧ m' b a d = f m a d)
  have hInvR : ∀ m', Inv m' → ∀ b a d, ¬(b = c ∧ cond a d) → m' b a d = m b a d := by
    intro m' h b a d hn
    rcases h b a d with h | ⟨h1, h2, _⟩
    · exact h
    · exact absurd ⟨h1, h2⟩ hn
  have hcell : ∀ (i' j' : ℤ) (t : Mem), X_min ≤ i' → i' < X_max → Y_min ≤ j' → j' < Y_max →
      Inv t → Inv (if cond i' j' then t.write c i' j' (f t i' j') else t) := by
    intro i' j' t h1 h2 h3 h4 ht
    by_cases hc : cond i' j'
    · simp only [hc, if_true]
      intro b a d
      by_cases hw : b = c ∧ a = i' ∧ d = j'
      · right
        obtain ⟨hb, ha, hd⟩ := hw
        subst hb ha hd
        refine ⟨rfl, hc, ⟨h1, h2, h3, h4⟩, ?_⟩
        simp only [Mem.write, true_and, and_self, if_true]
        exact hf a d hc t (hInvR t ht)
      · simp only [Mem.write, hw, if_false]
        exact ht b a d
    · simp only [hc, if_false]; exact ht
  have hrow : ∀ (i' : ℤ) (t : Mem), X_min ≤ i' → i' < X_max → Inv t →
      Inv (forLoop Y_min Y_max
        (fun j m => if cond i' j then m.write c i' j (f m i' j) else m) t) := by
    intro i' t h1 h2 ht
    exact forLoop_inv Inv _ _ _ _ (fun j' t' h3 h4 ht' => hcell i' j' t' h1 h2 h3 h4 ht') ht
  have h0 : Inv m := fun b a d => Or.inl rfl
  by_cases hcase : b = c ∧ X_min ≤ i ∧ i < X_max ∧ Y_min ≤ j ∧ j < Y_max ∧ cond i j
  · rw [if_pos hcase]
    obtain ⟨hb, hi1, hi2, hj1, hj2, hc⟩ := hcase
    subst hb
    -- a later round either leaves the cell or assigns the same value again
    have hkeep : ∀ (i' j' : ℤ) (t : Mem), Inv t → t b i j = f m i j →
        (if cond i' j' then t.write b i' j' (f t i' j') else t) b i j = f m i j := by
      intro i' j' t ht hq
      by_cases hc' : cond i' j'
      · simp only [hc', if_true, Mem.write]
        split_ifs with hw
        · obtain ⟨_, ha, hd⟩ := hw
          subst ha hd
          exact hf i j hc t (hInvR t ht)
        · exact hq
      · simp only [hc', if_false]; exact hq
    unfold sweep
    refine forLoop_hit Inv (fun t => t b i j = f m i j) _ _ _ _ i hi1 hi2 hrow ?_ ?_ h0
    · intro i' t h1 h2 ht hq
      have := forLoop_inv (fun t' => Inv t' ∧ t' b i j = f m i j) Y_min Y_max
        (fun j m => if cond i' j then m.write b i' j (f m i' j) else m) t
        (fun j' t' h3 h4 ht' =>
          ⟨hcell i' j' t' h1 h2 h3 h4 ht'.1, hkeep i' j' t' ht'.1 ht'.2⟩) ⟨ht, hq⟩
      exact this.2
    · intro t ht
      refine forLoop_hit Inv (fun t => t b i j = f m i j) _ _ _ _ j hj1 hj2
        (fun j' t' h3 h4 ht' => hcell i j' t' hi1 hi2 h3 h4 ht')
        (fun j' t' _ _ ht' hq => hkeep i j' t' ht' hq) ?_ ht
      intro t' ht'
      simp only [hc, if_true, Mem.write, and_self]
      exact hf i j hc t' (hInvR t' ht')
  · rw [if_neg hcase]
    have hfin : Inv (sweep c cond f X_min X_max Y_min Y_max m) :=
      forLoop_inv Inv _ _ _ _ hrow h0
    rcases hfin b i j with h | ⟨h1, h2, ⟨h3, h4, h5, h6⟩, _⟩
    · exact h
    · exact absurd ⟨h1, h3, h4, h5, h6, h2⟩ hcase

theorem tmod_two_eq_zero (a : ℤ) : a.tmod 2 = 0 ↔ a % 2 = 0 := by
  rw [← Int.dvd_iff_tmod_eq_zero, Int.dvd_iff_emod_eq_zero]

theorem tmod_two_eq_one (a : ℤ) (ha : 0 ≤ a) : a.tmod 2 = 1 ↔ a % 2 = 1 := by
  rw [Int.tmod_eq_emod ha (by decide)]

theorem tmod_two_ne_one_of_even (a : ℤ) (h : a % 2 = 0) : ¬ a.tmod 2 = 1 := by
  have h0 := (tmod_two_eq_zero a).2 h
  omega

theorem tmod_two_even_of_eq_one (a : ℤ) (h : a.tmod 2 = 1) : a % 2 = 1 := by
  have h0 := Int.tdiv_add_tmod a 2
  omega

/-! ## Sweep bounds and valid lengths -/

theorem boundsAt_fst (global grid coord : ℤ) :
    (boundsAt global grid coord).1 = if coord = 0 then 2 else 1 := by
  unfold boundsAt sweepBounds
  by_cases h : coord = 0 <;> simp [h]

theorem boundsAt_snd (global grid coord : ℤ) :
    (boundsAt global grid coord).2 =
      if coord = grid - 1 then
        localDim global grid + 1 - ((paddedDim global grid - global) + 1)
      else localDim global grid + 1 := by
  unfold boundsAt sweepBounds
  by_cases h : coord = grid - 1 <;> simp [h]

/-- The valid length read off the code's bound is `local` for every process
but the last of the axis, which keeps `local - (global_padded - global)`. -/
theorem validLen_eq (global grid coord : ℤ) :
    validLen global grid coord =
      if coord = grid - 1 then localDim global grid - (paddedDim global grid - global)
      else localDim global grid := by
  unfold validLen
  rw [boundsAt_snd]
  by_cases h : coord = grid - 1 <;> simp [h]

/-- When the padding is smaller than one tile, `(grid - 1) * local < global`,
every row a sweep touches or reads is a real row of the global grid. -/
theorem swept_rows_real (global grid pr i : ℤ) (hg : 1 ≤ global) (hp : 1 ≤ grid)
    (hfit : grid * localDim global grid ≤ 2147483647)
    (hpr0 : 0 ≤ pr) (hpr : pr < grid)
    (hsmall : (grid - 1) * localDim global grid < global)
    (h1 : (boundsAt global grid pr).1 ≤ i) (h2 : i < (boundsAt global grid pr).2) :
    0 ≤ pr * localDim global grid + ((i - 1) - 1) ∧
    pr * localDim global grid + ((i + 1) - 1) < global := by
  have hpad := paddedDim_eq global grid hg hp hfit
  have hloc := localDim_pos global grid hg hp
  rw [boundsAt_fst] at h1
  rw [boundsAt_snd, hpad] at h2
  constructor
  · by_cases h0 : pr = 0
    · simp only [h0, if_true] at h1
      subst h0
      simp only [zero_mul, zero_add]
      omega
    · simp only [h0, if_false] at h1
      have : 1 * localDim global grid ≤ pr * localDim global grid :=
        mul_le_mul_of_nonneg_right (by omega) (by omega)
      omega
  · by_cases hl : pr = grid - 1
    · simp only [hl, if_true] at h2
      subst hl
      have : (grid - 1) * localDim global grid =
          grid * localDim global grid - localDim global grid := by ring
      omega
    · simp only [hl, if_false] at h2
      have h3 : (pr + 1) * localDim global grid ≤ (grid - 1) * localDim global grid :=
        mul_le_mul_of_nonneg_right (by omega) (by omega)
      have h4 : (pr + 1) * localDim global grid =
          pr * localDim global grid + localDim global grid := by ring
      omega

/-- As integers, the valid lengths of an axis add up to the global dimension. -/
theorem sum_validLen (global : ℤ) (P : ℕ) (hg : 1 ≤ global) (hP : 1 ≤ P)
    (hfit : (P : ℤ) * localDim global (P : ℤ) ≤ 2147483647) :
    ∑ pr in Finset.range P, validLen global (P : ℤ) (pr : ℤ) = global := by
  have hpad := paddedDim_eq global (P : ℤ) hg (by exact_mod_cast hP) hfit
  obtain ⟨n, rfl⟩ : ∃ n, P = n + 1 := ⟨P - 1, by omega⟩
  rw [Finset.sum_range_succ]
  have hinner : ∀ pr ∈ Finset.range n,
      validLen global ((n + 1 : ℕ) : ℤ) (pr : ℤ) = localDim global ((n + 1 : ℕ) : ℤ) := by
    intro pr hpr
    have hlt : pr < n := Finset.mem_range.mp hpr
    rw [validLen_eq, if_neg]
    push_cast
    omega
  rw [Finset.sum_congr rfl hinner, Finset.sum_const, Finset.card_range]
  rw [validLen_eq, if_pos (by push_cast; ring), hpad]
  simp only [nsmul_eq_mul]
  push_cast
  ring

theorem length_filter_lt (n : ℕ) (m : ℤ) :
    ((List.range n).filter (fun (r : ℕ) => decide ((r : ℤ) < m))).length =
      min n m.toNat := by
  induction n with
  | zero => simp
  | succ n ih =>
    rw [List.range_succ, List.filter_append, List.length_append, ih]
    by_cases h : (n : ℤ) < m
    · simp only [List.filter_cons, h, decide_True, if_true, List.filter_nil,
        List.length_singleton]
      omega
    · simp only [List.filter_cons, h, decide_False, List.filter_nil, List.length_nil]
      simp
      omega

/-- The number of real rows of a tile, in closed form. -/
theorem realLen_eq (global grid coord : ℤ) :
    realLen global grid coord =
      min (localDim global grid).toNat (global - coord * localDim global grid).toNat := by
  unfold realLen
  rw [← length_filter_lt]
  congr 1
  apply List.filter_congr
  intro r _
  simp only [decide_eq_decide]
  omega

/-- When the padding is smaller than one tile, the valid length the code's bound
gives is the number of real rows of the tile, and is at least one. -/
theorem validLen_eq_realLen (global grid coord : ℤ) (hg : 1 ≤ global) (hp : 1 ≤ grid)
    (hfit : grid * localDim global grid ≤ 2147483647)
    (hsmall : (grid - 1) * localDim global grid < global)
    (hc0 : 0 ≤ coord) (hc1 : coord < grid) :
    validLen global grid coord = (realLen global grid coord : ℤ) ∧
    1 ≤ validLen global grid coord := by
  have hpad := paddedDim_eq global grid hg hp hfit
  have hloc := localDim_pos global grid hg hp
  have hge := localDim_ge global grid hg hp
  have hexp : (grid - 1) * localDim global grid =
      grid * localDim global grid - localDim global grid := by ring
  rw [validLen_eq, realLen_eq, hpad]
  by_cases hl : coord = grid - 1
  · rw [if_pos hl]
    subst hl
    omega
  · rw [if_neg hl]
    have h3 : (coord + 1) * localDim global grid ≤ (grid - 1) * localDim global grid :=
      mul_le_mul_of_nonneg_right (by omega) (by omega)
    have h4 : (coord + 1) * localDim global grid =
        coord * localDim global grid + localDim global grid := by ring
    omega

/-- Off the defect: when on both axes the padding is smaller than one tile, the
valid lengths are the real row and column counts of the tiles, they add up to
the global dimensions, and the cell counts add up to
`global_rows * global_cols`. -/
theorem valid_cells_sum_small_padding (global_rows global_cols : ℤ) (Px Py : ℕ)
    (hr : 1 ≤ global_rows) (hc : 1 ≤ global_cols) (hPx : 1 ≤ Px) (hPy : 1 ≤ Py)
    (hfit0 : (Px : ℤ) * localDim global_rows (Px : ℤ) ≤ 2147483647)
    (hfit1 : (Py : ℤ) * localDim global_cols (Py : ℤ) ≤ 2147483647)
    (hs0 : ((Px : ℤ) - 1) * localDim global_rows (Px : ℤ) < global_rows)
    (hs1 : ((Py : ℤ) - 1) * localDim global_cols (Py : ℤ) < global_cols) :
    (∀ pr ∈ Finset.range Px,
      validLen global_rows (Px : ℤ) (pr : ℤ) = (realLen global_rows (Px : ℤ) (pr : ℤ) : ℤ)) ∧
    (∀ pc ∈ Finset.range Py,
      validLen global_cols (Py : ℤ) (pc : ℤ) = (realLen global_cols (Py : ℤ) (pc : ℤ) : ℤ)) ∧
    ∑ pr in Finset.range Px, validLen global_rows (Px : ℤ) (pr : ℤ) = global_rows ∧
    ∑ pc in Finset.range Py, validLen global_cols (Py : ℤ) (pc : ℤ) = global_cols ∧
    ∑ pr in Finset.range Px, ∑ pc in Finset.range Py,
      validLen global_rows (Px : ℤ) (pr : ℤ) * validLen global_cols (Py : ℤ) (pc : ℤ) =
        global_rows * global_cols := by
  refine ⟨?_, ?_, sum_validLen global_rows Px hr hPx hfit0,
    sum_validLen global_cols Py hc hPy hfit1, ?_⟩
  · intro pr hpr
    have := Finset.mem_range.mp hpr
    exact (validLen_eq_realLen global_rows Px pr hr (by exact_mod_cast hPx) hfit0 hs0
      (by omega) (by exact_mod_cast this)).1
  · intro pc hpc
    have := Finset.mem_range.mp hpc
    exact (validLen_eq_realLen global_cols Py pc hc (by exact_mod_cast hPy) hfit1 hs1
      (by omega) (by exact_mod_cast this)).1
  · rw [← Finset.sum_mul_sum, sum_validLen global_rows Px hr hPx hfit0,
      sum_validLen global_cols Py hc hPy hfit1]

/-! ## The exchange round in closed form -/

theorem afterNorth_of_ne (local0 local1 : ℤ) (u : ℕ) (F : Family) (pr pc b : ℕ) (a c : ℤ)
    (ha : a ≠ 0) : afterNorth local0 local1 u F pr pc b a c = F pr pc b a c := by
  cases pr with
  | zero => rfl
  | succ n => simp [afterNorth, recvRow, ha]

theorem afterNorth_apply (local0 local1 : ℤ) (u : ℕ) (F : Family) (pr pc b : ℕ) (a c : ℤ)
    (h0 : 1 ≤ local0) :
    afterNorth local0 local1 u F pr pc b a c =
      if b = u ∧ 0 < pr ∧ a = 0 ∧ 1 ≤ c ∧ c ≤ local1 then F (pr - 1) pc u local0 c
      else F pr pc b a c := by
  cases pr with
  | zero => simp [afterNorth]
  | succ n =>
    simp only [afterNorth, recvRow, rowMsg, Nat.add_sub_cancel, Nat.succ_pos, true_and]
    rw [afterNorth_of_ne local0 local1 u F n pc u local0 _ (by omega)]
    have : (1 : ℤ) + (c - 1) = c := by ring
    rw [this]

theorem afterSouth_apply (Px : ℕ) (local0 local1 : ℤ) (u : ℕ) (F : Family) (pr pc b : ℕ)
    (a c : ℤ) :
    afterSouth Px local0 local1 u F pr pc b a c =
      if b = u ∧ pr + 1 < Px ∧ a = local0 + 1 ∧ 1 ≤ c ∧ c ≤ local1 then F (pr + 1) pc u 1 c
      else afterNorth local0 local1 u F pr pc b a c := by
  unfold afterSouth
  have : (1 : ℤ) + (c - 1) = c := by ring
  by_cases h : pr + 1 < Px
  · simp only [h, if_true, recvRow, rowMsg, true_and, this]
  · simp only [h, if_false, false_and, and_false]

theorem afterEastFrom_of_ne (Px : ℕ) (local0 local1 : ℤ) (u : ℕ) (F : Family) (pr k pc b : ℕ)
    (a c : ℤ) (hc : c ≠ local1 + 1) :
    afterEastFrom Px local0 local1 u F pr k pc b a c =
      afterSouth Px local0 local1 u F pr pc b a c := by
  cases k with
  | zero => rfl
  | succ n => simp [afterEastFrom, recvCol, hc]

theorem afterEast_apply (Px Py : ℕ) (local0 local1 : ℤ) (u : ℕ) (F : Family) (pr pc b : ℕ)
    (a c : ℤ) (h1 : 1 ≤ local1) :
    afterEast Px Py local0 local1 u F pr pc b a c =
      if b = u ∧ pc + 1 < Py ∧ c = local1 + 1 ∧ 1 ≤ a ∧ a ≤ local0 then
        afterSouth Px local0 local1 u F pr (pc + 1) u a 1
      else afterSouth Px local0 local1 u F pr pc b a c := by
  unfold afterEast
  have h : (1 : ℤ) + (a - 1) = a := by ring
  by_cases hk : pc + 1 < Py
  · obtain ⟨k, hk'⟩ : ∃ k, Py - 1 - pc = k + 1 := ⟨Py - 1 - pc - 1, by omega⟩
    rw [hk']
    simp only [afterEastFrom, recvCol, colMsg, hk, true_and, h]
    rw [afterEastFrom_of_ne Px local0 local1 u F pr k (pc + 1) u a 1 (by omega)]
  · have hk' : Py - 1 - pc = 0 := by omega
    rw [hk']
    simp only [afterEastFrom, hk, false_and, and_false, if_false]

theorem afterWest_apply (Px Py : ℕ) (local0 local1 : ℤ) (u : ℕ) (F : Family) (pr pc b : ℕ)
    (a c : ℤ) :
    afterWest Px Py local0 local1 u F pr pc b a c =
      if b = u ∧ 0 < pc ∧ c = 0 ∧ 1 ≤ a ∧ a ≤ local0 then
        afterSouth Px local0 local1 u F pr (pc - 1) u a local1
      else afterEast Px Py local0 local1 u F pr pc b a c := by
  have h : (1 : ℤ) + (a - 1) = a := by ring
  cases pc with
  | zero => simp [afterWest]
  | succ n =>
    simp only [afterWest, recvCol, colMsg, Nat.add_sub_cancel, Nat.succ_pos, true_and, h]

/-- The interior of a tile, rows `1..local[0]` and columns `1..local[1]`, is
neither a ghost row nor a ghost column: the first two exchanges leave it. -/
theorem afterSouth_interior (Px : ℕ) (local0 local1 : ℤ) (u : ℕ) (F : Family) (pr pc b : ℕ)
    (a c : ℤ) (ha1 : 1 ≤ a) (ha2 : a ≤ local0) :
    afterSouth Px local0 local1 u F pr pc b a c = F pr pc b a c := by
  rw [afterSouth_apply, if_neg (by omega), afterNorth_of_ne _ _ _ _ _ _ _ _ _ (by omega)]

/-- With tiles of at least one row and one column, the exchange round of the
code is the simultaneous exchange of the specification. -/
theorem exchange_eq_spec (Px Py : ℕ) (local0 local1 : ℤ) (u : ℕ) (F : Family)
    (h0 : 1 ≤ local0) (h1 : 1 ≤ local1) :
    exchange Px Py local0 local1 u F = exchangeSpec Px Py local0 local1 u F := by
  funext pr pc b a c
  unfold exchange exchangeSpec
  rw [afterWest_apply]
  by_cases hw : b = u ∧ 0 < pc ∧ c = 0 ∧ 1 ≤ a ∧ a ≤ local0
  · rw [if_pos hw, if_pos hw, afterSouth_interior _ _ _ _ _ _ _ _ _ _ hw.2.2.2.1 hw.2.2.2.2]
  · rw [if_neg hw, if_neg hw, afterEast_apply _ _ _ _ _ _ _ _ _ _ _ h1]
    by_cases he : b = u ∧ pc + 1 < Py ∧ c = local1 + 1 ∧ 1 ≤ a ∧ a ≤ local0
    · rw [if_pos he, if_pos he,
        afterSouth_interior _ _ _ _ _ _ _ _ _ _ he.2.2.2.1 he.2.2.2.2]
    · rw [if_neg he, if_neg he, afterSouth_apply, afterNorth_apply _ _ _ _ _ _ _ _ _ h0]

theorem exchangeSpec_interior (Px Py : ℕ) (local0 local1 : ℤ) (u : ℕ) (F : Family)
    (pr pc b : ℕ) (a c : ℤ) (ha1 : 1 ≤ a) (ha2 : a ≤ local0) (hc1 : 1 ≤ c) (hc2 : c ≤ local1) :
    exchangeSpec Px Py local0 local1 u F pr pc b a c = F pr pc b a c := by
  unfold exchangeSpec
  rw [if_neg (by omega), if_neg (by omega), if_neg (by omega), if_neg (by omega)]

theorem exchangeSpec_idem (Px Py : ℕ) (local0 local1 : ℤ) (u : ℕ) (F : Family)
    (h0 : 1 ≤ local0) (h1 : 1 ≤ local1) :
    exchangeSpec Px Py local0 local1 u (exchangeSpec Px Py local0 local1 u F) =
      exchangeSpec Px Py local0 local1 u F := by
  funext pr pc b a c
  have hI := exchangeSpec_interior Px Py local0 local1 u F
  show (if _ then _ else if _ then _ else if _ then _ else if _ then _ else _) =
    (if _ then _ else if _ then _ else if _ then _ else if _ then _ else _)
  split_ifs with h2 h3 h4 h5
  · exact hI _ _ _ _ _ h2.2.2.2.1 h2.2.2.2.2 h1 le_rfl
  · exact hI _ _ _ _ _ h3.2.2.2.1 h3.2.2.2.2 le_rfl h1
  · exact hI _ _ _ _ _ le_rfl h0 h4.2.2.2.1 h4.2.2.2.2
  · exact hI _ _ _ _ _ h0 le_rfl h5.2.2.2.1 h5.2.2.2.2
  · unfold exchangeSpec
    rw [if_neg h2, if_neg h3, if_neg h4, if_neg h5]

/-! ## The ghost-ring copy -/

theorem write_other (m : Mem) (c : ℕ) (i j : ℤ) (v : ℚ) (b : ℕ) (a d : ℤ) (hb : b ≠ c) :
    m.write c i j v b a d = m b a d := by
  simp [Mem.write, hb]

/-- Assigning cell `(a, d)` of `c` the value `p` holds there keeps the fact that
cell `(i, j)` of `c` holds the value `p` had there at the start. -/
theorem write_copy_keep (m t : Mem) (p c : ℕ) (i j a d : ℤ)
    (hR : ∀ a d, t p a d = m p a d) (hQ : t c i j = m p i j) :
    t.write c a d (t p a d) c i j = m p i j := by
  unfold Mem.write
  split_ifs with h
  · obtain ⟨_, ha, hd⟩ := h
    subst ha hd
    exact hR i j
  · exact hQ

theorem write_copy_hit (m t : Mem) (p c : ℕ) (i j : ℤ) (hR : ∀ a d, t p a d = m p a d) :
    t.write c i j (t p i j) c i j = m p i j := by
  simp [Mem.write, hR]

/-- The ghost-ring copy does not write `u_previous`. -/
theorem ghostCopy_prev (m : Mem) (p c : ℕ) (local0 local1 : ℤ) (hbuf : p ≠ c) (a d : ℤ) :
    ghostCopy m p c local0 local1 p a d = m p a d := by
  have hw : ∀ (t : Mem) (i j : ℤ) (v : ℚ), (∀ a d, t p a d = m p a d) →
      ∀ a d, t.write c i j v p a d = m p a d := by
    intro t i j v ht a d
    rw [write_other _ _ _ _ _ _ _ _ hbuf]; exact ht a d
  have h := forLoop_inv (fun t : Mem => ∀ a d, t p a d = m p a d) 0 (local1 + 2)
    (fun j m =>
      let m := m.write c 0 j (m p 0 j)
      m.write c (local0 + 1) j (m p (local0 + 1) j))
    (forLoop 0 (local0 + 2) (fun i m =>
      let m := m.write c i 0 (m p i 0)
      m.write c i (local1 + 1) (m p i (local1 + 1))) m)
    (fun j t _ _ ht => hw _ _ _ _ (hw t _ _ _ ht))
    (forLoop_inv (fun t : Mem => ∀ a d, t p a d = m p a d) 0 (local0 + 2) _ m
      (fun i t _ _ ht => hw _ _ _ _ (hw t _ _ _ ht)) (fun _ _ => rfl))
  exact h a d

/-- After the ghost-ring copy the western ghost column of `u_current` is that of
`u_previous`. -/
theorem ghostCopy_west (m : Mem) (p c : ℕ) (local0 local1 : ℤ) (hbuf : p ≠ c) (i : ℤ)
    (hi0 : 0 ≤ i) (hi1 : i < local0 + 2) :
    ghostCopy m p c local0 local1 c i 0 = m p i 0 := by
  have hw : ∀ (t : Mem) (i j : ℤ) (v : ℚ), (∀ a d, t p a d = m p a d) →
      ∀ a d, t.write c i j v p a d = m p a d := by
    intro t i j v ht a d
    rw [write_other _ _ _ _ _ _ _ _ hbuf]; exact ht a d
  have hfirst := forLoop_hit (fun t : Mem => ∀ a d, t p a d = m p a d)
    (fun t : Mem => t c i 0 = m p i 0) 0 (local0 + 2)
    (fun i m =>
      let m := m.write c i 0 (m p i 0)
      m.write c i (local1 + 1) (m p i (local1 + 1))) m i hi0 hi1
    (fun k t _ _ ht => hw _ _ _ _ (hw t _ _ _ ht))
    (fun k t _ _ ht hq =>
      write_copy_keep m _ p c i 0 _ _ (hw t _ _ _ ht)
        (write_copy_keep m t p c i 0 _ _ ht hq))
    (fun t ht =>
      write_copy_keep m _ p c i 0 _ _ (hw t _ _ _ ht) (write_copy_hit m t p c i 0 ht))
    (fun _ _ => rfl)
  have hR1 := forLoop_inv (fun t : Mem => ∀ a d, t p a d = m p a d) 0 (local0 + 2)
    (fun i m =>
      let m := m.write c i 0 (m p i 0)
      m.write c i (local1 + 1) (m p i (local1 + 1))) m
    (fun i t _ _ ht => hw _ _ _ _ (hw t _ _ _ ht)) (fun _ _ => rfl)
  have h := forLoop_inv (fun t : Mem => (∀ a d, t p a d = m p a d) ∧ t c i 0 = m p i 0)
    0 (local1 + 2)
    (fun j m =>
      let m := m.write c 0 j (m p 0 j)
      m.write c (local0 + 1) j (m p (local0 + 1) j))
    (forLoop 0 (local0 + 2) (fun i m =>
      let m := m.write c i 0 (m p i 0)
      m.write c i (local1 + 1) (m p i (local1 + 1))) m)
    (fun j t _ _ ht =>
      ⟨hw _ _ _ _ (hw t _ _ _ ht.1),
        write_copy_keep m _ p c i 0 _ _ (hw t _ _ _ ht.1)
          (write_copy_keep m t p c i 0 _ _ ht.1 ht.2)⟩)
    ⟨hR1, hfirst⟩
  exact h.2

/-- A process without western neighbour keeps its western ghost column through an
exchange round. -/
theorem exchange_west_col (Px Py : ℕ) (local0 local1 : ℤ) (u : ℕ) (F : Family) (pr b : ℕ)
    (a : ℤ) (h0 : 1 ≤ local0) (h1 : 1 ≤ local1) :
    exchange Px Py local0 local1 u F pr 0 b a 0 = F pr 0 b a 0 := by
  rw [exchange_eq_spec _ _ _ _ _ _ h0 h1]
  unfold exchangeSpec
  rw [if_neg (by omega), if_neg (by omega), if_neg (by omega), if_neg (by omega)]

/-- What the halo-exchange step does to the western ghost column of a process
without western neighbour. -/
theorem haloStep_west_col (Px Py : ℕ) (local0 local1 : ℤ) (p c : ℕ) (F : Family) (pr : ℕ)
    (i : ℤ) (hbuf : p ≠ c) (h0 : 1 ≤ local0) (h1 : 1 ≤ local1)
    (hi0 : 0 ≤ i) (hi1 : i ≤ local0 + 1) :
    haloStep Px Py local0 local1 p c F pr 0 p i 0 = F pr 0 p i 0 ∧
    haloStep Px Py local0 local1 p c F pr 0 c i 0 = F pr 0 p i 0 := by
  unfold haloStep
  rw [ghostCopy_prev _ _ _ _ _ hbuf, ghostCopy_west _ _ _ _ _ hbuf i hi0 (by omega),
    exchange_west_col _ _ _ _ _ _ _ _ _ h0 h1]
  exact ⟨rfl, rfl⟩

/-! ## Blocks of the padded global array -/

/-- Quotient and remainder by `s` are determined by the number. -/
theorem divmod_unique (s q r q' r' : ℤ) (hr0 : 0 ≤ r) (hr1 : r < s) (hr0' : 0 ≤ r')
    (hr1' : r' < s) (h : q * s + r = q' * s + r') : q = q' ∧ r = r' := by
  have hs : 0 < s := by omega
  have hq : q = q' := by
    rcases lt_trichotomy q q' with hlt | heq | hgt
    · have h1 : (q + 1) * s ≤ q' * s := mul_le_mul_of_nonneg_right (by omega) (by omega)
      have h2 : (q + 1) * s = q * s + s := by ring
      omega
    · exact heq
    · have h1 : (q' + 1) * s ≤ q * s := mul_le_mul_of_nonneg_right (by omega) (by omega)
      have h2 : (q' + 1) * s = q' * s + s := by ring
      omega
  subst hq
  exact ⟨rfl, by omega⟩

/-- Splitting `n` with `0 ≤ n < g * l` as `q * l + r`. -/
theorem split_index (g l n : ℤ) (hl : 1 ≤ l) (hn0 : 0 ≤ n) (hn1 : n < g * l) :
    ∃ q r : ℤ, 0 ≤ q ∧ q < g ∧ 0 ≤ r ∧ r < l ∧ n = q * l + r := by
  refine ⟨n / l, n % l, Int.ediv_nonneg hn0 (by omega), ?_,
    Int.emod_nonneg n (by omega), Int.emod_lt_of_pos n (by omega), ?_⟩
  · exact Int.ediv_lt_of_lt_mul (by omega) hn1
  · have := Int.emod_add_ediv n l
    rw [mul_comm] at this
    omega

/-- An index `q * l + r` with `0 ≤ q < g` and `0 ≤ r < l` lies in `[0, g * l)`. -/
theorem join_index (g l q r : ℤ) (hq0 : 0 ≤ q) (hq1 : q < g) (hr0 : 0 ≤ r) (hr1 : r < l) :
    0 ≤ q * l + r ∧ q * l + r < g * l := by
  have h1 : 0 ≤ q * l := mul_nonneg hq0 (by omega)
  have h2 : (q + 1) * l ≤ g * l := mul_le_mul_of_nonneg_right (by omega) (by omega)
  have h3 : (q + 1) * l = q * l + l := by ring
  omega

/-- The element `(r, c)` of the block of process `(i, j)` is the cell of row
`i * l0 + r` and column `j * l1 + c` of the array of row length `g1 * l1`. -/
theorem block_index (l0 l1 g1 i j r c : ℤ) :
    (l0 * l1 * g1 * i + l1 * j) + r * (g1 * l1) + c =
      (i * l0 + r) * (g1 * l1) + (j * l1 + c) := by
  ring

theorem block_inside (l0 l1 g0 g1 i j r c : ℤ)
    (hi0 : 0 ≤ i) (hi1 : i < g0) (hj0 : 0 ≤ j) (hj1 : j < g1)
    (hr0 : 0 ≤ r) (hr1 : r < l0) (hc0 : 0 ≤ c) (hc1 : c < l1) :
    0 ≤ (l0 * l1 * g1 * i + l1 * j) + r * (g1 * l1) + c ∧
    (l0 * l1 * g1 * i + l1 * j) + r * (g1 * l1) + c < (g0 * l0) * (g1 * l1) ∧
    ((l0 * l1 * g1 * i + l1 * j) + r * (g1 * l1) + c) / (g1 * l1) = i * l0 + r ∧
    ((l0 * l1 * g1 * i + l1 * j) + r * (g1 * l1) + c) % (g1 * l1) = j * l1 + c := by
  rw [block_index]
  obtain ⟨hrow0, hrow1⟩ := join_index g0 l0 i r hi0 hi1 hr0 hr1
  obtain ⟨hcol0, hcol1⟩ := join_index g1 l1 j c hj0 hj1 hc0 hc1
  obtain ⟨h1, h2⟩ := join_index (g0 * l0) (g1 * l1) (i * l0 + r) (j * l1 + c)
    hrow0 hrow1 hcol0 hcol1
  refine ⟨h1, h2, ?_, ?_⟩
  · rw [add_comm, Int.add_mul_ediv_right _ _ (by omega), Int.ediv_eq_zero_of_lt hcol0 hcol1]
    ring
  · rw [add_comm, Int.add_mul_emod_self, Int.emod_eq_of_lt hcol0 hcol1]

theorem block_decode (l0 l1 g0 g1 k : ℤ) (hl0 : 1 ≤ l0) (hl1 : 1 ≤ l1) (hg1 : 1 ≤ g1)
    (hk0 : 0 ≤ k) (hk1 : k < (g0 * l0) * (g1 * l1)) :
    ∃ i j r c : ℤ, (0 ≤ i ∧ i < g0) ∧ (0 ≤ j ∧ j < g1) ∧ (0 ≤ r ∧ r < l0) ∧
      (0 ≤ c ∧ c < l1) ∧ k = (l0 * l1 * g1 * i + l1 * j) + r * (g1 * l1) + c := by
  have hP1 : 1 ≤ g1 * l1 := by
    have : 1 * 1 ≤ g1 * l1 := mul_le_mul hg1 hl1 (by omega) (by omega)
    omega
  obtain ⟨row, col, hrow0, hrow1, hcol0, hcol1, hk⟩ :=
    split_index (g0 * l0) (g1 * l1) k hP1 hk0 hk1
  obtain ⟨i, r, hi0, hi1, hr0, hr1, hrow⟩ := split_index g0 l0 row hl0 hrow0 hrow1
  obtain ⟨j, c, hj0, hj1, hc0, hc1, hcol⟩ := split_index g1 l1 col hl1 hcol0 hcol1
  refine ⟨i, j, r, c, ⟨hi0, hi1⟩, ⟨hj0, hj1⟩, ⟨hr0, hr1⟩, ⟨hc0, hc1⟩, ?_⟩
  rw [block_index, ← hrow, ← hcol]
  exact hk

theorem block_unique (l0 l1 g1 i j r c i' j' r' c' : ℤ)
    (hj0 : 0 ≤ j) (hj1 : j < g1) (hr0 : 0 ≤ r) (hr1 : r < l0) (hc0 : 0 ≤ c) (hc1 : c < l1)
    (hj0' : 0 ≤ j') (hj1' : j' < g1) (hr0' : 0 ≤ r') (hr1' : r' < l0)
    (hc0' : 0 ≤ c') (hc1' : c' < l1)
    (h : (l0 * l1 * g1 * i + l1 * j) + r * (g1 * l1) + c =
      (l0 * l1 * g1 * i' + l1 * j') + r' * (g1 * l1) + c') :
    i = i' ∧ j = j' ∧ r = r' ∧ c = c' := by
  rw [block_index, block_index] at h
  obtain ⟨hcol0, hcol1⟩ := join_index g1 l1 j c hj0 hj1 hc0 hc1
  obtain ⟨hcol0', hcol1'⟩ := join_index g1 l1 j' c' hj0' hj1' hc0' hc1'
  obtain ⟨hrow, hcol⟩ := divmod_unique (g1 * l1) _ _ _ _ hcol0 hcol1 hcol0' hcol1' h
  obtain ⟨hi, hr⟩ := divmod_unique l0 _ _ _ _ hr0 hr1 hr0' hr1' hrow
  obtain ⟨hj, hc⟩ := divmod_unique l1 _ _ _ _ hc0 hc1 hc0' hc1' hcol
  exact ⟨hi, hj, hr, hc⟩

/-! ## The transfer table, scatter and gather -/

/-- When the padded array has at most `2^31 - 1` cells, no product or sum of
lines 115-116 leaves the `int` range: index and offset are the exact values. -/
theorem table_entry_exact (l0 l1 g0 g1 i j : ℤ) (hl0 : 1 ≤ l0) (hl1 : 1 ≤ l1)
    (hfit : (g0 * l0) * (g1 * l1) ≤ 2147483647)
    (hi0 : 0 ≤ i) (hi1 : i < g0) (hj0 : 0 ≤ j) (hj1 : j < g1) :
    tableIndex g1 i j = i * g1 + j ∧
    offsetOf l0 l1 g1 i j = l0 * l1 * g1 * i + l1 * j := by
  have hA : 1 ≤ l0 * l1 := by nlinarith [mul_nonneg (sub_nonneg.2 hl0) (sub_nonneg.2 hl1)]
  have hB : l0 * l1 ≤ l0 * l1 * g1 := le_mul_of_one_le_right (by omega) (by omega)
  have hM : l0 * l1 * g1 ≤ l0 * l1 * g1 * g0 := le_mul_of_one_le_right (by omega) (by omega)
  have hMeq : (g0 * l0) * (g1 * l1) = l0 * l1 * g1 * g0 := by ring
  have hC0 : 0 ≤ l0 * l1 * g1 * i := mul_nonneg (by omega) hi0
  have hC1 : l0 * l1 * g1 * i ≤ l0 * l1 * g1 * (g0 - 1) :=
    mul_le_mul_of_nonneg_left (by omega) (by omega)
  have hC2 : l0 * l1 * g1 * (g0 - 1) = l0 * l1 * g1 * g0 - l0 * l1 * g1 := by ring
  have hD0 : 0 ≤ l1 * j := mul_nonneg (by omega) hj0
  have hD1 : l1 * j ≤ l1 * (g1 - 1) := mul_le_mul_of_nonneg_left (by omega) (by omega)
  have hD2 : l1 * (g1 - 1) = l1 * g1 - l1 := by ring
  have hD3 : 1 * (l1 * g1) ≤ l0 * (l1 * g1) :=
    mul_le_mul_of_nonneg_right hl0 (mul_nonneg (by omega) (by omega))
  have hD4 : l0 * (l1 * g1) = l0 * l1 * g1 := by ring
  have hE0 : 0 ≤ i * g1 := mul_nonneg hi0 (by omega)
  have hE1 : i * g1 ≤ (g0 - 1) * g1 := mul_le_mul_of_nonneg_right (by omega) (by omega)
  have hE2 : (g0 - 1) * g1 = g0 * g1 - g1 := by ring
  have hE3 : (g0 * g1) * 1 ≤ (g0 * g1) * (l0 * l1) :=
    mul_le_mul_of_nonneg_left hA (mul_nonneg (by omega) (by omega))
  have hE4 : (g0 * g1) * (l0 * l1) = l0 * l1 * g1 * g0 := by ring
  constructor
  · unfold tableIndex addInt mulInt
    rw [wrap32_of_fits (i * g1) (by omega) (by omega),
      wrap32_of_fits (i * g1 + j) (by omega) (by omega)]
  · unfold offsetOf addInt mulInt
    rw [wrap32_of_fits (l0 * l1) (by omega) (by omega),
      wrap32_of_fits (l0 * l1 * g1) (by omega) (by omega),
      wrap32_of_fits (l0 * l1 * g1 * i) (by omega) (by omega),
      wrap32_of_fits (l1 * j) (by omega) (by omega),
      wrap32_of_fits (l0 * l1 * g1 * i + l1 * j) (by omega) (by omega)]

/-- The entries lines 113-118 leave in the two tables for the process `(i, j)`,
of rank `i * grid[1] + j`, when the padded array has at most `2^31 - 1` cells. -/
theorem buildTables_apply (l0 l1 g0 g1 : ℤ) (init : (ℤ → ℤ) × (ℤ → ℤ)) (i j : ℤ)
    (hl0 : 1 ≤ l0) (hl1 : 1 ≤ l1) (hfit : (g0 * l0) * (g1 * l1) ≤ 2147483647)
    (hi0 : 0 ≤ i) (hi1 : i < g0) (hj0 : 0 ≤ j) (hj1 : j < g1) :
    (buildTables l0 l1 g0 g1 init).1 (i * g1 + j) = 1 ∧
    (buildTables l0 l1 g0 g1 init).2 (i * g1 + j) = l0 * l1 * g1 * i + l1 * j := by
  let Q : (ℤ → ℤ) × (ℤ → ℤ) → Prop := fun t =>
    t.1 (i * g1 + j) = 1 ∧ t.2 (i * g1 + j) = l0 * l1 * g1 * i + l1 * j
  have hkeep : ∀ (i' j' : ℤ) (t : (ℤ → ℤ) × (ℤ → ℤ)), 0 ≤ i' → i' < g0 → 0 ≤ j' → j' < g1 →
      Q t →
      Q (Function.update t.1 (tableIndex g1 i' j') 1,
        Function.update t.2 (tableIndex g1 i' j') (offsetOf l0 l1 g1 i' j')) := by
    intro i' j' t hi0' hi1' h0 h1 ht
    obtain ⟨e1, e2⟩ := table_entry_exact l0 l1 g0 g1 i' j' hl0 hl1 hfit hi0' hi1' h0 h1
    rw [e1, e2]
    by_cases hk : i * g1 + j = i' * g1 + j'
    · obtain ⟨hi, hj⟩ := divmod_unique g1 i j i' j' hj0 hj1 h0 h1 hk
      subst hi hj
      exact ⟨by simp, by simp⟩
    · exact ⟨by simp only [Function.update_noteq hk]; exact ht.1,
        by simp only [Function.update_noteq hk]; exact ht.2⟩
  have hrow : ∀ (i' : ℤ) (t : (ℤ → ℤ) × (ℤ → ℤ)), 0 ≤ i' → i' < g0 → Q t →
      Q (forLoop 0 g1 (fun j t =>
        (Function.update t.1 (tableIndex g1 i' j) 1,
         Function.update t.2 (tableIndex g1 i' j) (offsetOf l0 l1 g1 i' j))) t) := by
    intro i' t hi0' hi1' ht
    exact forLoop_inv Q 0 g1 _ t
      (fun j' t' h0 h1 ht' => hkeep i' j' t' hi0' hi1' h0 h1 ht') ht
  unfold buildTables
  refine forLoop_hit (fun _ => True) Q 0 g0 _ init i hi0 hi1 (fun _ _ _ _ _ => trivial)
    (fun i' t h0 h1 _ ht => hrow i' t h0 h1 ht) ?_ trivial
  intro t _
  refine forLoop_hit (fun _ => True) Q 0 g1 _ t j hj0 hj1 (fun _ _ _ _ _ => trivial)
    (fun j' t' h0 h1 _ ht' => hkeep i j' t' hi0 hi1 h0 h1 ht') ?_ trivial
  intro t' _
  obtain ⟨e1, e2⟩ := table_entry_exact l0 l1 g0 g1 i j hl0 hl1 hfit hi0 hi1 hj0 hj1
  show Q (Function.update t'.1 (tableIndex g1 i j) 1,
    Function.update t'.2 (tableIndex g1 i j) (offsetOf l0 l1 g1 i j))
  rw [e1, e2]
  exact ⟨by simp, by simp⟩

/-- The elements one block of type `global_block` at displacement `d` covers. -/
theorem mem_coveredBy_one (d l0 l1 s k : ℤ) :
    k ∈ coveredBy 1 d l0 l1 s ↔
      ∃ r c : ℤ, (0 ≤ r ∧ r < l0) ∧ (0 ≤ c ∧ c < l1) ∧ k = d + r * s + c := by
  unfold coveredBy typeVector
  simp only [List.mem_flatMap, List.mem_map, List.mem_range, Int.toNat_one]
  constructor
  · rintro ⟨n, hn, d', ⟨r, hr, c, hc, rfl⟩, rfl⟩
    have hn0 : n = 0 := by omega
    subst hn0
    refine ⟨(r : ℤ), (c : ℤ), ⟨by omega, by omega⟩, ⟨by omega, by omega⟩, ?_⟩
    push_cast
    ring
  · rintro ⟨r, c, ⟨hr0, hr1⟩, ⟨hc0, hc1⟩, rfl⟩
    refine ⟨0, by omega, r.toNat * s + c.toNat,
      ⟨r.toNat, by omega, c.toNat, by omega, rfl⟩, ?_⟩
    rw [Int.toNat_of_nonneg hr0, Int.toNat_of_nonneg hc0]
    push_cast
    ring

/-- What the scatter leaves in the interior cell `(1 + r, 1 + c)` of the tile. -/
theorem scatterBlock_apply (U : ℤ → ℚ) (displ stride l0 l1 : ℤ) (m : Mem) (u : ℕ) (r c : ℤ)
    (hr0 : 0 ≤ r) (hr1 : r < l0) (hc0 : 0 ≤ c) (hc1 : c < l1) :
    scatterBlock U displ stride l0 l1 m u u (1 + r) (1 + c) = U (displ + r * stride + c) := by
  let Q : Mem → Prop := fun t => t u (1 + r) (1 + c) = U (displ + r * stride + c)
  have hkeep : ∀ (r' c' : ℤ) (t : Mem), Q t →
      Q (t.write u (1 + r') (1 + c') (U (displ + r' * stride + c'))) := by
    intro r' c' t ht
    show Mem.write t u (1 + r') (1 + c') _ u (1 + r) (1 + c) = _
    unfold Mem.write
    split_ifs with h
    · obtain ⟨_, h1, h2⟩ := h
      have e1 : r = r' := by omega
      have e2 : c = c' := by omega
      rw [e1, e2]
    · exact ht
  unfold scatterBlock
  refine forLoop_hit (fun _ => True) Q 0 l0 _ m r hr0 hr1 (fun _ _ _ _ _ => trivial)
    (fun r' t _ _ _ ht =>
      forLoop_inv Q 0 l1 _ t (fun c' t' _ _ ht' => hkeep r' c' t' ht') ht) ?_ trivial
  intro t _
  refine forLoop_hit (fun _ => True) Q 0 l1 _ t c hc0 hc1 (fun _ _ _ _ _ => trivial)
    (fun c' t' _ _ _ ht' => hkeep r c' t' ht') ?_ trivial
  intro t' _
  show Mem.write t' u (1 + r) (1 + c) _ u (1 + r) (1 + c) = _
  simp [Mem.write]

/-- Gathering a tile that holds the values of `U` keeps a cell that holds the
value of `U`. -/
theorem gatherBlock_keep (U Ug : ℤ → ℚ) (m : Mem) (u : ℕ) (displ stride l0 l1 k : ℤ)
    (hm : ∀ r c, 0 ≤ r → r < l0 → 0 ≤ c → c < l1 →
      m u (1 + r) (1 + c) = U (displ + r * stride + c))
    (hk : Ug k = U k) :
    gatherBlock m u displ stride l0 l1 Ug k = U k := by
  unfold gatherBlock
  refine forLoop_inv (fun t : ℤ → ℚ => t k = U k) 0 l0 _ Ug (fun r t hr0 hr1 ht => ?_) hk
  refine forLoop_inv (fun t : ℤ → ℚ => t k = U k) 0 l1 _ t (fun c t' hc0 hc1 ht' => ?_) ht
  show Function.update t' _ _ k = U k
  rw [Function.update_apply]
  split_ifs with h
  · rw [hm r c hr0 hr1 hc0 hc1, h]
  · exact ht'

/-- Gathering a tile that holds the values of `U` restores the covered cells. -/
theorem gatherBlock_hit (U Ug : ℤ → ℚ) (m : Mem) (u : ℕ) (displ stride l0 l1 r c : ℤ)
    (hm : ∀ r c, 0 ≤ r → r < l0 → 0 ≤ c → c < l1 →
      m u (1 + r) (1 + c) = U (displ + r * stride + c))
    (hr0 : 0 ≤ r) (hr1 : r < l0) (hc0 : 0 ≤ c) (hc1 : c < l1) :
    gatherBlock m u displ stride l0 l1 Ug (displ + r * stride + c) =
      U (displ + r * stride + c) := by
  have hcell : ∀ (r' c' : ℤ) (t : ℤ → ℚ), 0 ≤ r' → r' < l0 → 0 ≤ c' → c' < l1 →
      t (displ + r * stride + c) = U (displ + r * stride + c) →
      Function.update t (displ + r' * stride + c') (m u (1 + r') (1 + c'))
        (displ + r * stride + c) = U (displ + r * stride + c) := by
    intro r' c' t h1 h2 h3 h4 ht
    rw [Function.update_apply]
    split_ifs with h
    · rw [hm r' c' h1 h2 h3 h4, h]
    · exact ht
  unfold gatherBlock
  refine forLoop_hit (fun _ => True)
    (fun t : ℤ → ℚ => t (displ + r * stride + c) = U (displ + r * stride + c)) 0 l0 _ Ug r
    hr0 hr1 (fun _ _ _ _ _ => trivial)
    (fun r' t h1 h2 _ ht =>
      forLoop_inv (fun t : ℤ → ℚ => t (displ + r * stride + c) = U (displ + r * stride + c))
        0 l1 _ t (fun c' t' h3 h4 ht' => hcell r' c' t' h1 h2 h3 h4 ht') ht) ?_ trivial
  intro t _
  refine forLoop_hit (fun _ => True)
    (fun t : ℤ → ℚ => t (displ + r * stride + c) = U (displ + r * stride + c)) 0 l1 _ t c
    hc0 hc1 (fun _ _ _ _ _ => trivial)
    (fun c' t' h3 h4 _ ht' => hcell r c' t' hr0 hr1 h3 h4 ht') ?_ trivial
  intro t' _
  show Function.update t' _ _ _ = _
  rw [Function.update_same]
  exact hm r c hr0 hr1 hc0 hc1

/-- Scatter followed by gather, with the same table, restores every cell of the
global array that some block covers. -/
theorem gatherv_scatterv (U U0 : ℤ → ℚ) (offsets : ℤ → ℤ) (g0 g1 stride l0 l1 : ℤ)
    (u : ℕ) (F : Family) (i j r c : ℤ)
    (hi0 : 0 ≤ i) (hi1 : i < g0) (hj0 : 0 ≤ j) (hj1 : j < g1)
    (hr0 : 0 ≤ r) (hr1 : r < l0) (hc0 : 0 ≤ c) (hc1 : c < l1) :
    gatherv (scatterv U offsets g1 stride l0 l1 u F) u offsets g0 g1 stride l0 l1 U0
        (offsets (i * g1 + j) + r * stride + c) =
      U (offsets (i * g1 + j) + r * stride + c) := by
  have htile : ∀ i' j' : ℤ, 0 ≤ i' → 0 ≤ j' → ∀ r c, 0 ≤ r → r < l0 → 0 ≤ c → c < l1 →
      scatterv U offsets g1 stride l0 l1 u F i'.toNat j'.toNat u (1 + r) (1 + c) =
        U (offsets (i' * g1 + j') + r * stride + c) := by
    intro i' j' hi' hj' r c h1 h2 h3 h4
    unfold scatterv
    rw [scatterBlock_apply U _ stride l0 l1 _ u r c h1 h2 h3 h4,
      Int.toNat_of_nonneg hi', Int.toNat_of_nonneg hj']
  let Q : (ℤ → ℚ) → Prop := fun t =>
    t (offsets (i * g1 + j) + r * stride + c) = U (offsets (i * g1 + j) + r * stride + c)
  unfold gatherv
  refine forLoop_hit (fun _ => True) Q 0 g0 _ U0 i hi0 hi1 (fun _ _ _ _ _ => trivial)
    (fun i' t h1 _ _ ht =>
      forLoop_inv Q 0 g1 _ t (fun j' t' h3 _ ht' =>
        gatherBlock_keep U t' _ u _ stride l0 l1 _ (htile i' j' h1 h3) ht') ht) ?_ trivial
  intro t _
  refine forLoop_hit (fun _ => True) Q 0 g1 _ t j hj0 hj1 (fun _ _ _ _ _ => trivial)
    (fun j' t' h3 _ _ ht' =>
      gatherBlock_keep U t' _ u _ stride l0 l1 _ (htile i j' hi0 h3) ht') ?_ trivial
  intro t' _
  exact gatherBlock_hit U t' _ u _ stride l0 l1 r c (htile i j hi0 hj0) hr0 hr1 hc0 hc1

/-- A table that gives every process `(i, j)` count 1 and the offset of lines
113-118 tiles the array of `grid0 * l0` rows and `grid1 * l1` columns. -/
theorem table_tiles_of (l0 l1 grid0 grid1 P0 P1 : ℤ) (T : (ℤ → ℤ) × (ℤ → ℤ))
    (hl0 : 1 ≤ l0) (hl1 : 1 ≤ l1) (hp1 : 1 ≤ grid1)
    (hP0 : P0 = grid0 * l0) (hP1 : P1 = grid1 * l1)
    (hT : ∀ i j : ℤ, 0 ≤ i → i < grid0 → 0 ≤ j → j < grid1 →
      T.1 (i * grid1 + j) = 1 ∧ T.2 (i * grid1 + j) = l0 * l1 * grid1 * i + l1 * j) :
    (∀ i j : ℤ, 0 ≤ i → i < grid0 → 0 ≤ j → j < grid1 →
      T.1 (i * grid1 + j) = 1 ∧
      T.2 (i * grid1 + j) = l0 * l1 * grid1 * i + l1 * j ∧
      T.2 (i * grid1 + j) = (i * l0) * P1 + j * l1) ∧
    (∀ k : ℤ, 0 ≤ k → k < P0 * P1 →
      ∃! q : ℤ × ℤ, (0 ≤ q.1 ∧ q.1 < grid0 ∧ 0 ≤ q.2 ∧ q.2 < grid1) ∧
        k ∈ coveredBy (T.1 (q.1 * grid1 + q.2)) (T.2 (q.1 * grid1 + q.2)) l0 l1 P1) ∧
    (∀ i j : ℤ, 0 ≤ i → i < grid0 → 0 ≤ j → j < grid1 →
      ∀ k ∈ coveredBy (T.1 (i * grid1 + j)) (T.2 (i * grid1 + j)) l0 l1 P1,
        0 ≤ k ∧ k < P0 * P1) ∧
    (∀ i j i' j' : ℤ, 0 ≤ i → i < grid0 → 0 ≤ j → j < grid1 →
      0 ≤ i' → i' < grid0 → 0 ≤ j' → j' < grid1 → (i, j) ≠ (i', j') →
      ∀ k : ℤ, ¬ (k ∈ coveredBy (T.1 (i * grid1 + j)) (T.2 (i * grid1 + j)) l0 l1 P1 ∧
        k ∈ coveredBy (T.1 (i' * grid1 + j')) (T.2 (i' * grid1 + j')) l0 l1 P1)) ∧
    (∀ (U U0 : ℤ → ℚ) (u : ℕ) (F : Family) (k : ℤ), 0 ≤ k → k < P0 * P1 →
      gatherv (scatterv U T.2 grid1 P1 l0 l1 u F) u T.2 grid0 grid1 P1 l0 l1 U0 k = U k) := by
  subst hP0 hP1
  have hmem : ∀ i j k : ℤ, 0 ≤ i → i < grid0 → 0 ≤ j → j < grid1 →
      (k ∈ coveredBy (T.1 (i * grid1 + j)) (T.2 (i * grid1 + j)) l0 l1 (grid1 * l1) ↔
        ∃ r c : ℤ, (0 ≤ r ∧ r < l0) ∧ (0 ≤ c ∧ c < l1) ∧
          k = (l0 * l1 * grid1 * i + l1 * j) + r * (grid1 * l1) + c) := by
    intro i j k h1 h2 h3 h4
    rw [(hT i j h1 h2 h3 h4).1, (hT i j h1 h2 h3 h4).2, mem_coveredBy_one]
  refine ⟨?_, ?_, ?_, ?_, ?_⟩
  · intro i j h1 h2 h3 h4
    refine ⟨(hT i j h1 h2 h3 h4).1, (hT i j h1 h2 h3 h4).2, ?_⟩
    rw [(hT i j h1 h2 h3 h4).2]
    ring
  · intro k hk0 hk1
    obtain ⟨i, j, r, c, ⟨hi0, hi1⟩, ⟨hj0, hj1⟩, hr, hc, hk⟩ :=
      block_decode l0 l1 grid0 grid1 k hl0 hl1 hp1 hk0 hk1
    refine ⟨(i, j), ⟨⟨hi0, hi1, hj0, hj1⟩, (hmem i j k hi0 hi1 hj0 hj1).2 ⟨r, c, hr, hc, hk⟩⟩,
      ?_⟩
    rintro ⟨i', j'⟩ ⟨⟨hi0', hi1', hj0', hj1'⟩, hk'⟩
    obtain ⟨r', c', hr', hc', hk2⟩ := (hmem i' j' k hi0' hi1' hj0' hj1').1 hk'
    obtain ⟨e1, e2, _, _⟩ := block_unique l0 l1 grid1 i' j' r' c' i j r c
      hj0' hj1' hr'.1 hr'.2 hc'.1 hc'.2 hj0 hj1 hr.1 hr.2 hc.1 hc.2 (hk2.symm.trans hk)
    rw [e1, e2]
  · intro i j h1 h2 h3 h4 k hk
    obtain ⟨r, c, hr, hc, rfl⟩ := (hmem i j k h1 h2 h3 h4).1 hk
    obtain ⟨hin0, hin1, _, _⟩ := block_inside l0 l1 grid0 grid1 i j r c h1 h2 h3 h4
      hr.1 hr.2 hc.1 hc.2
    exact ⟨hin0, hin1⟩
  · intro i j i' j' h1 h2 h3 h4 h1' h2' h3' h4' hne k hboth
    obtain ⟨r, c, hr, hc, hk⟩ := (hmem i j k h1 h2 h3 h4).1 hboth.1
    obtain ⟨r', c', hr', hc', hk'⟩ := (hmem i' j' k h1' h2' h3' h4').1 hboth.2
    obtain ⟨e1, e2, _, _⟩ := block_unique l0 l1 grid1 i j r c i' j' r' c'
      h3 h4 hr.1 hr.2 hc.1 hc.2 h3' h4' hr'.1 hr'.2 hc'.1 hc'.2 (hk.symm.trans hk')
    exact hne (by rw [e1, e2])
  · intro U U0 u F k hk0 hk1
    obtain ⟨i, j, r, c, ⟨hi0, hi1⟩, ⟨hj0, hj1⟩, hr, hc, hk⟩ :=
      block_decode l0 l1 grid0 grid1 k hl0 hl1 hp1 hk0 hk1
    have hk' : k = T.2 (i * grid1 + j) + r * (grid1 * l1) + c := by
      rw [(hT i j hi0 hi1 hj0 hj1).2]; exact hk
    rw [hk']
    exact gatherv_scatterv U U0 T.2 grid0 grid1 (grid1 * l1) l0 l1 u F i j r c
      hi0 hi1 hj0 hj1 hr.1 hr.2 hc.1 hc.2

/-! ## Claims -/

/-- C1: `RedSOR` on distinct buffers gives every red cell of the bounds the
stencil value computed from `u_previous` only, and leaves every other cell of
`u_current` and all of `u_previous` as they were.  The claim's `X_min ≥ 1`,
`Y_min ≥ 1` keep the reads at `i - 1`, `j - 1` inside the C arrays; the grids of
the embedding are total, and the statement holds for all bounds. -/
theorem RedSOR_spec (m : Mem) (u_previous u_current : ℕ) (X_min X_max Y_min Y_max : ℤ)
    (omega : ℚ) (hbuf : u_previous ≠ u_current) :
    (∀ i j, X_min ≤ i → i < X_max → Y_min ≤ j → j < Y_max → (i + j) % 2 = 0 →
      RedSOR m u_previous u_current X_min X_max Y_min Y_max omega u_current i j =
        m u_previous i j + (omega / 4) *
          (m u_previous (i - 1) j + m u_previous (i + 1) j + m u_previous i (j - 1)
            + m u_previous i (j + 1) - 4 * m u_previous i j)) ∧
    (∀ i j, ¬(X_min ≤ i ∧ i < X_max ∧ Y_min ≤ j ∧ j < Y_max ∧ (i + j) % 2 = 0) →
      RedSOR m u_previous u_current X_min X_max Y_min Y_max omega u_current i j =
        m u_current i j) ∧
    (∀ i j, RedSOR m u_previous u_current X_min X_max Y_min Y_max omega u_previous i j =
        m u_previous i j) := by
  have key := sweep_apply u_current (fun i j => (i + j).tmod 2 = 0)
    (fun m i j => stencil omega (m u_previous) (m u_previous) i j) X_min X_max Y_min Y_max m
    (by
      intro i j _ m' hm'
      have hp : ∀ a d, m' u_previous a d = m u_previous a d :=
        fun a d => hm' u_previous a d (fun h => hbuf h.1)
      simp only [stencil, hp])
  rw [RedSOR_eq_sweep]
  refine ⟨?_, ?_, ?_⟩
  · intro i j h1 h2 h3 h4 h5
    rw [key, if_pos ⟨rfl, h1, h2, h3, h4, (tmod_two_eq_zero _).2 h5⟩]
    rfl
  · intro i j hn
    rw [key, if_neg]
    rintro ⟨_, h1, h2, h3, h4, h5⟩
    exact hn ⟨h1, h2, h3, h4, (tmod_two_eq_zero _).1 h5⟩
  · intro i j
    rw [key, if_neg]
    rintro ⟨h, _⟩
    exact hbuf h

/-- C1 at the red cell `(1, 1)` of `sampleMem`, buffers 0 and 1, bounds
`[1, 3) × [1, 3)`. -/
theorem RedSOR_spec_witness :
    (0 : ℕ) ≠ 1 ∧
    RedSOR sampleMem 0 1 1 3 1 3 (3 / 2) 1 1 1 =
      sampleMem 0 1 1 + ((3 / 2 : ℚ) / 4) *
        (sampleMem 0 (1 - 1) 1 + sampleMem 0 (1 + 1) 1 + sampleMem 0 1 (1 - 1)
          + sampleMem 0 1 (1 + 1) - 4 * sampleMem 0 1 1) :=
  ⟨by decide,
    (RedSOR_spec sampleMem 0 1 1 3 1 3 (3 / 2) (by decide)).1 1 1 (by decide) (by decide) (by decide)
      (by decide) (by decide)⟩

/-- C2: `BlackSOR` on distinct buffers with `X_min ≥ 1`, `Y_min ≥ 1` gives every
black cell of the bounds the stencil value whose four neighbours are read from
`u_current` as it was on entry; red cells, cells outside the bounds and all of
`u_previous` are left as they were. -/
theorem BlackSOR_spec (m : Mem) (u_previous u_current : ℕ) (X_min X_max Y_min Y_max : ℤ)
    (omega : ℚ) (hbuf : u_previous ≠ u_current) (hX : 1 ≤ X_min) (hY : 1 ≤ Y_min) :
    (∀ i j, X_min ≤ i → i < X_max → Y_min ≤ j → j < Y_max → (i + j) % 2 = 1 →
      BlackSOR m u_previous u_current X_min X_max Y_min Y_max omega u_current i j =
        m u_previous i j + (omega / 4) *
          (m u_current (i - 1) j + m u_current (i + 1) j + m u_current i (j - 1)
            + m u_current i (j + 1) - 4 * m u_previous i j)) ∧
    (∀ i j, ¬(X_min ≤ i ∧ i < X_max ∧ Y_min ≤ j ∧ j < Y_max ∧ (i + j) % 2 = 1) →
      BlackSOR m u_previous u_current X_min X_max Y_min Y_max omega u_current i j =
        m u_current i j) ∧
    (∀ i j, BlackSOR m u_previous u_current X_min X_max Y_min Y_max omega u_previous i j =
        m u_previous i j) := by
  have key := sweep_apply u_current (fun i j => (i + j).tmod 2 = 1)
    (fun m i j => stencil omega (m u_previous) (m u_current) i j) X_min X_max Y_min Y_max m
    (by
      intro i j hij m' hm'
      have hodd := tmod_two_even_of_eq_one _ hij
      have hp : ∀ a d, m' u_previous a d = m u_previous a d :=
        fun a d => hm' u_previous a d (fun h => hbuf h.1)
      have hc : ∀ a d, (a + d) % 2 = 0 → m' u_current a d = m u_current a d :=
        fun a d he => hm' u_current a d (fun h => tmod_two_ne_one_of_even _ he h.2)
      simp only [stencil, hp]
      rw [hc (i - 1) j (by omega), hc (i + 1) j (by omega), hc i (j - 1) (by omega),
        hc i (j + 1) (by omega)])
  rw [BlackSOR_eq_sweep]
  refine ⟨?_, ?_, ?_⟩
  · intro i j h1 h2 h3 h4 h5
    rw [key, if_pos ⟨rfl, h1, h2, h3, h4, (tmod_two_eq_one _ (by omega)).2 h5⟩]
    rfl
  · intro i j hn
    rw [key, if_neg]
    rintro ⟨_, h1, h2, h3, h4, h5⟩
    exact hn ⟨h1, h2, h3, h4, tmod_two_even_of_eq_one _ h5⟩
  · intro i j
    rw [key, if_neg]
    rintro ⟨h, _⟩
    exact hbuf h



/-- C2 at the black cell `(1, 2)` of `sampleMem`, buffers 0 and 1, bounds
`[1, 3) × [1, 3)`. -/
theorem BlackSOR_spec_witness :
    (0 : ℕ) ≠ 1 ∧ (1 : ℤ) ≤ 1 ∧
    BlackSOR sampleMem 0 1 1 3 1 3 (3 / 2) 1 1 2 =
      sampleMem 0 1 2 + ((3 / 2 : ℚ) / 4) *
        (sampleMem 1 (1 - 1) 2 + sampleMem 1 (1 + 1) 2 + sampleMem 1 1 (2 - 1)
          + sampleMem 1 1 (2 + 1) - 4 * sampleMem 0 1 2) :=
  ⟨by decide, by decide,
    (BlackSOR_spec sampleMem 0 1 1 3 1 3 (3 / 2)
      (by decide) (by decide) (by decide)).1 1 2 (by decide) (by decide) (by decide)
      (by decide) (by decide)⟩

/-- C3, refuted as stated: at `global = 2147483647`, `grid = 2` the branch of
line 83 gives `local = 1073741824`, and the `int` product of line 84 wraps to
`global_padded = -2147483648`, which is neither `grid * local` nor at least
`global`. -/
theorem padded_overflow :
    (1 : ℤ) ≤ 2147483647 ∧ (1 : ℤ) ≤ 2 ∧
    localDim 2147483647 2 = 1073741824 ∧
    paddedDim 2147483647 2 = -2147483648 ∧
    paddedDim 2147483647 2 ≠ 2 * localDim 2147483647 2 ∧
    ¬ (0 ≤ paddedDim 2147483647 2 - 2147483647) := by
  decide

/-- C3, amended: for `global ≥ 1` and `grid ≥ 1` the partitioner's `local` is
the ceiling of `global / grid`, that is the least integer `L` with
`grid * L ≥ global`; and whenever `grid * local` fits a 32-bit `int`,
`global_padded = grid * local` in both branches and the padding
`global_padded - global` lies in `[0, grid)`. -/
theorem partition_ceil (global grid : ℤ) (hg : 1 ≤ global) (hp : 1 ≤ grid) :
    global ≤ grid * localDim global grid ∧
    (∀ L : ℤ, global ≤ grid * L → localDim global grid ≤ L) ∧
    (grid * localDim global grid ≤ 2147483647 →
      paddedDim global grid = grid * localDim global grid ∧
      0 ≤ paddedDim global grid - global ∧
      paddedDim global grid - global < grid) := by
  have hge := localDim_ge global grid hg hp
  have hlt := localDim_lt global grid hg hp
  refine ⟨hge, ?_, ?_⟩
  · intro L hL
    by_contra hc
    have h1 : L ≤ localDim global grid - 1 := by omega
    have h2 : grid * L ≤ grid * (localDim global grid - 1) :=
      mul_le_mul_of_nonneg_left h1 (by omega)
    omega
  · intro hfit
    have hpad := paddedDim_eq global grid hg hp hfit
    have : grid * (localDim global grid - 1) = grid * localDim global grid - grid := by ring
    exact ⟨hpad, by omega, by omega⟩

/-- C3 amended, at `global = 10`, `grid = 4`: `local = 3`, `global_padded = 12`. -/
theorem partition_ceil_witness :
    (1 : ℤ) ≤ 10 ∧ (1 : ℤ) ≤ 4 ∧ 4 * localDim 10 4 ≤ 2147483647 ∧
    (10 : ℤ) ≤ 4 * localDim 10 4 ∧
    paddedDim 10 4 = 4 * localDim 10 4 ∧
    0 ≤ paddedDim 10 4 - 10 ∧
    paddedDim 10 4 - 10 < 4 :=
  ⟨by decide, by decide, by decide,
    (partition_ceil 10 4 (by decide) (by decide)).1,
    (partition_ceil 10 4 (by decide) (by decide)).2.2 (by decide)⟩

/-- C4, evaluated at `global_rows = 5`, `Px = 4` (so `1 ≤ Px ≤ global_rows`):
`local[0] = 2`, `global_padded[0] = 8`, and the process of row coordinate 2,
which has both a northern and a southern neighbour, sweeps `1 ≤ i < 3`.  Its
local row `i = 2` is global row `2 * 2 + (2 - 1) = 5`, which is not below
`global_rows = 5`: a padded phantom row is updated. -/
theorem phantom_row_swept :
    (1 : ℤ) ≤ 4 ∧ (4 : ℤ) ≤ 5 ∧
    localDim 5 4 = 2 ∧ paddedDim 5 4 = 8 ∧ boundsAt 5 4 2 = (1, 3) ∧
    (boundsAt 5 4 2).1 ≤ 2 ∧ 2 < (boundsAt 5 4 2).2 ∧
    ¬ (2 * localDim 5 4 + (2 - 1) < 5) := by
  decide

/-- C9, refuted as stated: with the real sine, at `global_rows = 1` the factor of
line 88 is `2 / (1 + sin 3.14)`, which is not `2 / (1 + sin (π / 1)) = 2`. -/
theorem omega_ne_pi_formula :
    omegaOf Real.sin 1 ≠ 2 / (1 + Real.sin (Real.pi / ((1 : ℤ) : ℝ))) := by
  have hpos : 0 < Real.sin (3.14 : ℝ) :=
    Real.sin_pos_of_pos_of_lt_pi (by norm_num) Real.pi_gt_d2
  unfold omegaOf
  simp only [Int.cast_one, div_one, Real.sin_pi, add_zero]
  intro h
  have h2 : (1 + Real.sin (3.14 : ℝ)) ≠ 0 := by positivity
  field_simp at h
  linarith

/-- C9, amended: the factor `main` computes is `2 / (1 + sin (3.14 / global_rows))`,
with the literal `3.14` in place of π, whatever the sine function; it is the same
for every `global_cols` and every process-grid shape. -/
theorem omega_formula {K : Type} [Field K] (sin : K → K)
    (global_rows global_cols Px Py : ℤ) :
    (setup sin global_rows global_cols Px Py).omega =
      2 / (1 + sin (3.14 / (global_rows : K))) ∧
    ∀ global_cols' Px' Py' : ℤ,
      (setup sin global_rows global_cols' Px' Py').omega =
        (setup sin global_rows global_cols Px Py).omega :=
  ⟨rfl, fun _ _ _ => rfl⟩

/-- C8: for positive global dimensions and every `Px × Py` process grid, with the
tile dimensions `local` the partitioner computes, and for every content of the
tiles, a second exchange round right after the first changes nothing: ghost
rings and interiors of all processes are the same as after one round. -/
theorem exchange_idempotent (global_rows global_cols : ℤ) (Px Py : ℕ)
    (hr : 1 ≤ global_rows) (hc : 1 ≤ global_cols) (hPx : 1 ≤ Px) (hPy : 1 ≤ Py)
    (u : ℕ) (F : Family) :
    exchange Px Py (localDim global_rows Px) (localDim global_cols Py) u
        (exchange Px Py (localDim global_rows Px) (localDim global_cols Py) u F) =
      exchange Px Py (localDim global_rows Px) (localDim global_cols Py) u F := by
  have h0 := localDim_pos global_rows Px hr (by exact_mod_cast hPx)
  have h1 := localDim_pos global_cols Py hc (by exact_mod_cast hPy)
  rw [exchange_eq_spec _ _ _ _ _ _ h0 h1, exchange_eq_spec _ _ _ _ _ _ h0 h1]
  exact exchangeSpec_idem Px Py _ _ u F h0 h1

/-- C8 at `global = (4, 6)` on a `2 × 3` process grid, every tile `sampleMem`. -/
theorem exchange_idempotent_witness :
    (1 : ℤ) ≤ 4 ∧ (1 : ℤ) ≤ 6 ∧ 1 ≤ 2 ∧ 1 ≤ 3 ∧
    exchange 2 3 (localDim 4 (2 : ℕ)) (localDim 6 (3 : ℕ)) 0
        (exchange 2 3 (localDim 4 (2 : ℕ)) (localDim 6 (3 : ℕ)) 0 (fun _ _ => sampleMem)) =
      exchange 2 3 (localDim 4 (2 : ℕ)) (localDim 6 (3 : ℕ)) 0 (fun _ _ => sampleMem) :=
  ⟨by decide, by decide, by decide, by decide,
    exchange_idempotent 4 6 2 3 (by decide) (by decide) (by decide) (by decide) 0
      (fun _ _ => sampleMem)⟩

/-- C6, refuted as stated: a single process (`Px = Py = 1`, so no western
neighbour) on a 3 × 3 grid whose buffers hold 0 in column 0 and 1 elsewhere.
After the halo-exchange step the western ghost cell `u[1][0]` differs from the
first interior cell `u[1][1]`, in `u_previous` (buffer 0) and in `u_current`
(buffer 1). -/
theorem west_ghost_not_mirrored :
    haloStep 1 1 (localDim 3 1) (localDim 3 1) 0 1 (fun _ _ => stepMem) 0 0 0 1 0 ≠
      haloStep 1 1 (localDim 3 1) (localDim 3 1) 0 1 (fun _ _ => stepMem) 0 0 0 1 1 ∧
    haloStep 1 1 (localDim 3 1) (localDim 3 1) 0 1 (fun _ _ => stepMem) 0 0 1 1 0 ≠
      haloStep 1 1 (localDim 3 1) (localDim 3 1) 0 1 (fun _ _ => stepMem) 0 0 1 1 1 := by
  decide

/-- C6, amended: for a process without western neighbour (column coordinate 0)
and any tile content, with distinct buffers and tiles of at least one row and
column, the halo-exchange step leaves the western ghost column of `u_previous`
as it was on entry and makes the western ghost column of `u_current` equal to
it, on every row `0 ≤ i ≤ local[0] + 1`.  No mirroring of the first interior
column takes place. -/
theorem west_ghost_kept (Px Py : ℕ) (local0 local1 : ℤ) (u_previous u_current : ℕ)
    (F : Family) (pr : ℕ) (i : ℤ) (hbuf : u_previous ≠ u_current)
    (h0 : 1 ≤ local0) (h1 : 1 ≤ local1) (hi0 : 0 ≤ i) (hi1 : i ≤ local0 + 1) :
    haloStep Px Py local0 local1 u_previous u_current F pr 0 u_previous i 0 =
      F pr 0 u_previous i 0 ∧
    haloStep Px Py local0 local1 u_previous u_current F pr 0 u_current i 0 =
      F pr 0 u_previous i 0 :=
  haloStep_west_col Px Py local0 local1 u_previous u_current F pr i hbuf h0 h1 hi0 hi1

/-- C6 amended, at row 1 of a single process on a 3 × 3 grid. -/
theorem west_ghost_kept_witness :
    (0 : ℕ) ≠ 1 ∧ (1 : ℤ) ≤ 3 ∧ (0 : ℤ) ≤ 1 ∧ (1 : ℤ) ≤ 3 + 1 ∧
    haloStep 1 1 3 3 0 1 (fun _ _ => stepMem) 0 0 0 1 0 = stepMem 0 1 0 ∧
    haloStep 1 1 3 3 0 1 (fun _ _ => stepMem) 0 0 1 1 0 = stepMem 0 1 0 :=
  ⟨by decide, by decide, by decide, by decide,
    west_ghost_kept 1 1 3 3 0 1 (fun _ _ => stepMem) 0 1 (by decide) (by decide)
      (by decide) (by decide) (by decide)⟩

/-- C5, refuted as stated: at `global = (3, 3)` on a `2 × 2` process grid
(`local = (2, 2)`, `global_padded = (4, 4)`), the transfer entry of process
`(1, 1)` is one block at offset 10 and covers the element of linear index 15,
which is row 3 and column 3 of the padded array: a padding cell. -/
theorem padding_cell_transferred :
    (buildTables (localDim 3 2) (localDim 3 2) 2 2 (fun _ => 0, fun _ => 0)).1 (1 * 2 + 1) = 1 ∧
    (buildTables (localDim 3 2) (localDim 3 2) 2 2 (fun _ => 0, fun _ => 0)).2 (1 * 2 + 1) = 10 ∧
    (15 : ℤ) ∈ coveredBy
      ((buildTables (localDim 3 2) (localDim 3 2) 2 2 (fun _ => 0, fun _ => 0)).1 (1 * 2 + 1))
      ((buildTables (localDim 3 2) (localDim 3 2) 2 2 (fun _ => 0, fun _ => 0)).2 (1 * 2 + 1))
      (localDim 3 2) (localDim 3 2) (paddedDim 3 2) ∧
    ¬ ((15 : ℤ) / paddedDim 3 2 < 3) ∧ ¬ ((15 : ℤ) % paddedDim 3 2 < 3) := by
  decide

/-- C5, amended: for positive global dimensions and process-grid shapes whose
padded array has at most `2^31 - 1` cells, every process `(i, j)` has transfer
count 1, and every element its block covers is the cell of row
`i * local[0] + r` and column `j * local[1] + c` of the padded global array for
some `0 ≤ r < local[0]`, `0 ≤ c < local[1]`, inside the padded array.  The cell
is a non-padding cell along an axis whenever the block ends inside the real
extent, `(i + 1) * local[0] ≤ global[0]` or `(j + 1) * local[1] ≤ global[1]`,
in particular for every process when the process count divides the global
dimension.  When `grid[0]` does not divide `global[0]`, the block of every
process of the last process row covers a padding cell, of row at least
`global[0]`; likewise the last process column when `grid[1]` does not divide
`global[1]`.  The transfer counts are not adjusted for the padding. -/
theorem covered_cells (global0 global1 grid0 grid1 : ℤ)
    (hg0 : 1 ≤ global0) (hg1 : 1 ≤ global1) (hp0 : 1 ≤ grid0) (hp1 : 1 ≤ grid1)
    (hfit : (grid0 * localDim global0 grid0) * (grid1 * localDim global1 grid1) ≤ 2147483647)
    (init : (ℤ → ℤ) × (ℤ → ℤ)) (i j : ℤ)
    (hi0 : 0 ≤ i) (hi1 : i < grid0) (hj0 : 0 ≤ j) (hj1 : j < grid1) :
    (buildTables (localDim global0 grid0) (localDim global1 grid1) grid0 grid1 init).1
      (i * grid1 + j) = 1 ∧
    (∀ k ∈ coveredBy
        ((buildTables (localDim global0 grid0) (localDim global1 grid1) grid0 grid1 init).1
          (i * grid1 + j))
        ((buildTables (localDim global0 grid0) (localDim global1 grid1) grid0 grid1 init).2
          (i * grid1 + j))
        (localDim global0 grid0) (localDim global1 grid1) (paddedDim global1 grid1),
      (∃ r c : ℤ, (0 ≤ r ∧ r < localDim global0 grid0) ∧
        (0 ≤ c ∧ c < localDim global1 grid1) ∧
        k / paddedDim global1 grid1 = i * localDim global0 grid0 + r ∧
        k % paddedDim global1 grid1 = j * localDim global1 grid1 + c) ∧
      (0 ≤ k / paddedDim global1 grid1 ∧
        k / paddedDim global1 grid1 < paddedDim global0 grid0) ∧
      (0 ≤ k % paddedDim global1 grid1 ∧
        k % paddedDim global1 grid1 < paddedDim global1 grid1) ∧
      ((i + 1) * localDim global0 grid0 ≤ global0 → k / paddedDim global1 grid1 < global0) ∧
      ((j + 1) * localDim global1 grid1 ≤ global1 → k % paddedDim global1 grid1 < global1) ∧
      (global0 % grid0 = 0 → k / paddedDim global1 grid1 < global0) ∧
      (global1 % grid1 = 0 → k % paddedDim global1 grid1 < global1)) ∧
    (global0 % grid0 ≠ 0 → i = grid0 - 1 →
      ∃ k ∈ coveredBy
        ((buildTables (localDim global0 grid0) (localDim global1 grid1) grid0 grid1 init).1
          (i * grid1 + j))
        ((buildTables (localDim global0 grid0) (localDim global1 grid1) grid0 grid1 init).2
          (i * grid1 + j))
        (localDim global0 grid0) (localDim global1 grid1) (paddedDim global1 grid1),
        global0 ≤ k / paddedDim global1 grid1) ∧
    (global1 % grid1 ≠ 0 → j = grid1 - 1 →
      ∃ k ∈ coveredBy
        ((buildTables (localDim global0 grid0) (localDim global1 grid1) grid0 grid1 init).1
          (i * grid1 + j))
        ((buildTables (localDim global0 grid0) (localDim global1 grid1) grid0 grid1 init).2
          (i * grid1 + j))
        (localDim global0 grid0) (localDim global1 grid1) (paddedDim global1 grid1),
        global1 ≤ k % paddedDim global1 grid1) := by
  have hl0 := localDim_pos global0 grid0 hg0 hp0
  have hl1 := localDim_pos global1 grid1 hg1 hp1
  obtain ⟨hfit0, hfit1⟩ := fits_axes _ _ _ (one_le_prod _ _ hp0 hl0) (one_le_prod _ _ hp1 hl1) hfit
  obtain ⟨hT1, hT2⟩ := buildTables_apply (localDim global0 grid0) (localDim global1 grid1)
    grid0 grid1 init i j hl0 hl1 hfit hi0 hi1 hj0 hj1
  have hP0 := paddedDim_eq global0 grid0 hg0 hp0 hfit0
  have hP1 := paddedDim_eq global1 grid1 hg1 hp1 hfit1
  have hge0 := localDim_ge global0 grid0 hg0 hp0
  have hge1 := localDim_ge global1 grid1 hg1 hp1
  rw [hT1, hT2, hP0, hP1]
  refine ⟨rfl, ?_, ?_, ?_⟩
  · intro k hk
    rw [mem_coveredBy_one] at hk
    obtain ⟨r, c, ⟨hr0, hr1⟩, ⟨hc0, hc1⟩, rfl⟩ := hk
    obtain ⟨_, _, hrow, hcol⟩ := block_inside (localDim global0 grid0)
      (localDim global1 grid1) grid0 grid1 i j r c hi0 hi1 hj0 hj1 hr0 hr1 hc0 hc1
    obtain ⟨hrow0, hrow1⟩ := join_index grid0 (localDim global0 grid0) i r hi0 hi1 hr0 hr1
    obtain ⟨hcol0, hcol1⟩ := join_index grid1 (localDim global1 grid1) j c hj0 hj1 hc0 hc1
    have e0 : (i + 1) * localDim global0 grid0 =
        i * localDim global0 grid0 + localDim global0 grid0 := by ring
    have e1 : (j + 1) * localDim global1 grid1 =
        j * localDim global1 grid1 + localDim global1 grid1 := by ring
    rw [hrow, hcol]
    refine ⟨⟨r, c, ⟨hr0, hr1⟩, ⟨hc0, hc1⟩, rfl, rfl⟩, ⟨hrow0, hrow1⟩, ⟨hcol0, hcol1⟩,
      by omega, by omega, ?_, ?_⟩
    · intro hdiv
      rcases partition_cases global0 grid0 hg0 hp0 with ⟨_, _, hpad⟩ | ⟨hnd, _, _⟩
      · rw [hpad] at hP0; omega
      · exact absurd hdiv hnd
    · intro hdiv
      rcases partition_cases global1 grid1 hg1 hp1 with ⟨_, _, hpad⟩ | ⟨hnd, _, _⟩
      · rw [hpad] at hP1; omega
      · exact absurd hdiv hnd
  · intro hnd hi
    have hne : grid0 * localDim global0 grid0 ≠ global0 := by
      intro h
      apply hnd
      rw [← h, Int.mul_emod_right]
    refine ⟨_, (mem_coveredBy_one _ _ _ _ _).2
      ⟨localDim global0 grid0 - 1, 0, ⟨by omega, by omega⟩, ⟨le_rfl, by omega⟩, rfl⟩, ?_⟩
    obtain ⟨_, _, hrow, _⟩ := block_inside (localDim global0 grid0)
      (localDim global1 grid1) grid0 grid1 i j (localDim global0 grid0 - 1) 0
      hi0 hi1 hj0 hj1 (by omega) (by omega) le_rfl (by omega)
    rw [hrow, hi]
    have : (grid0 - 1) * localDim global0 grid0 =
        grid0 * localDim global0 grid0 - localDim global0 grid0 := by ring
    omega
  · intro hnd hj
    have hne : grid1 * localDim global1 grid1 ≠ global1 := by
      intro h
      apply hnd
      rw [← h, Int.mul_emod_right]
    refine ⟨_, (mem_coveredBy_one _ _ _ _ _).2
      ⟨0, localDim global1 grid1 - 1, ⟨le_rfl, by omega⟩, ⟨by omega, by omega⟩, rfl⟩, ?_⟩
    obtain ⟨_, _, _, hcol⟩ := block_inside (localDim global0 grid0)
      (localDim global1 grid1) grid0 grid1 i j 0 (localDim global1 grid1 - 1)
      hi0 hi1 hj0 hj1 le_rfl (by omega) (by omega) (by omega)
    rw [hcol, hj]
    have : (grid1 - 1) * localDim global1 grid1 =
        grid1 * localDim global1 grid1 - localDim global1 grid1 := by ring
    omega

/-- C5 amended, at `global = (3, 3)` on a `2 × 2` grid, process `(1, 1)`: count
1, and a covered cell of row at least 3. -/
theorem covered_cells_witness :
    (1 : ℤ) ≤ 3 ∧ (1 : ℤ) ≤ 2 ∧ (2 * localDim 3 2) * (2 * localDim 3 2) ≤ 2147483647 ∧
    (0 : ℤ) ≤ 1 ∧ (1 : ℤ) < 2 ∧ (3 : ℤ) % 2 ≠ 0 ∧ (1 : ℤ) = 2 - 1 ∧
    (buildTables (localDim 3 2) (localDim 3 2) 2 2 (fun _ => 0, fun _ => 0)).1 (1 * 2 + 1) = 1 ∧
    ∃ k ∈ coveredBy
      ((buildTables (localDim 3 2) (localDim 3 2) 2 2 (fun _ => 0, fun _ => 0)).1 (1 * 2 + 1))
      ((buildTables (localDim 3 2) (localDim 3 2) 2 2 (fun _ => 0, fun _ => 0)).2 (1 * 2 + 1))
      (localDim 3 2) (localDim 3 2) (paddedDim 3 2), 3 ≤ k / paddedDim 3 2 :=
  ⟨by decide, by decide, by decide, by decide, by decide, by decide, by decide,
    (covered_cells 3 3 2 2 (by decide) (by decide) (by decide) (by decide) (by decide)
      (fun _ => 0, fun _ => 0) 1 1 (by decide) (by decide) (by decide) (by decide)).1,
    (covered_cells 3 3 2 2 (by decide) (by decide) (by decide) (by decide) (by decide)
      (fun _ => 0, fun _ => 0) 1 1 (by decide) (by decide) (by decide) (by decide)).2.2.1
      (by decide) (by decide)⟩

/-- C10, refuted as stated: at `global = (70000, 70000)` on a `2 × 1` process
grid (`local = (35000, 70000)`) the `int` product of line 116 wraps, and the
offset stored for the process `(1, 0)` is `-1844967296`, not the row-major index
`35000 * 70000 = 2450000000` of its first cell; the block starts outside the
array. -/
theorem offset_overflow :
    (1 : ℤ) ≤ 70000 ∧ (1 : ℤ) ≤ 2 ∧ (1 : ℤ) ≤ 1 ∧
    localDim 70000 2 = 35000 ∧ localDim 70000 1 = 70000 ∧ paddedDim 70000 1 = 70000 ∧
    (buildTables (localDim 70000 2) (localDim 70000 1) 2 1 (fun _ => 0, fun _ => 0)).2
      (1 * 1 + 0) = -1844967296 ∧
    (buildTables (localDim 70000 2) (localDim 70000 1) 2 1 (fun _ => 0, fun _ => 0)).2
      (1 * 1 + 0) ≠ (1 * localDim 70000 2) * paddedDim 70000 1 + 0 * localDim 70000 1 ∧
    ¬ (0 ≤ (buildTables (localDim 70000 2) (localDim 70000 1) 2 1
      (fun _ => 0, fun _ => 0)).2 (1 * 1 + 0)) := by
  decide

/-- C10, amended: for `global ≥ 1` and `grid ≥ 1` on both axes such that the
padded array has at most `2^31 - 1` cells, with `l0`, `l1` the `local` and `P0`,
`P1` the `global_padded` the partitioner computes, and `T` the tables as lines
113-118 build them: (1) the entry of process `(i, j)` is count 1 and offset
`local[0]*local[1]*grid[1]*i + local[1]*j`, the row-major linear index, at row
stride `global_padded[1]`, of cell `(i*local[0], j*local[1])`; (2) every linear
index of the padded array is covered by the block of exactly one process;
(3) every block stays inside the padded array; (4) the blocks of two different
processes are disjoint; (5) a gather right after a scatter writes back every
cell of the padded array into the position it was read from. -/
theorem table_tiles_padded (global0 global1 grid0 grid1 : ℤ)
    (hg0 : 1 ≤ global0) (hg1 : 1 ≤ global1) (hp0 : 1 ≤ grid0) (hp1 : 1 ≤ grid1)
    (init : (ℤ → ℤ) × (ℤ → ℤ)) (l0 l1 P0 P1 : ℤ) (T : (ℤ → ℤ) × (ℤ → ℤ))
    (hl0 : l0 = localDim global0 grid0) (hl1 : l1 = localDim global1 grid1)
    (hP0 : P0 = paddedDim global0 grid0) (hP1 : P1 = paddedDim global1 grid1)
    (hT : T = buildTables l0 l1 grid0 grid1 init)
    (hfit : (grid0 * l0) * (grid1 * l1) ≤ 2147483647) :
    (∀ i j : ℤ, 0 ≤ i → i < grid0 → 0 ≤ j → j < grid1 →
      T.1 (i * grid1 + j) = 1 ∧
      T.2 (i * grid1 + j) = l0 * l1 * grid1 * i + l1 * j ∧
      T.2 (i * grid1 + j) = (i * l0) * P1 + j * l1) ∧
    (∀ k : ℤ, 0 ≤ k → k < P0 * P1 →
      ∃! q : ℤ × ℤ, (0 ≤ q.1 ∧ q.1 < grid0 ∧ 0 ≤ q.2 ∧ q.2 < grid1) ∧
        k ∈ coveredBy (T.1 (q.1 * grid1 + q.2)) (T.2 (q.1 * grid1 + q.2)) l0 l1 P1) ∧
    (∀ i j : ℤ, 0 ≤ i → i < grid0 → 0 ≤ j → j < grid1 →
      ∀ k ∈ coveredBy (T.1 (i * grid1 + j)) (T.2 (i * grid1 + j)) l0 l1 P1,
        0 ≤ k ∧ k < P0 * P1) ∧
    (∀ i j i' j' : ℤ, 0 ≤ i → i < grid0 → 0 ≤ j → j < grid1 →
      0 ≤ i' → i' < grid0 → 0 ≤ j' → j' < grid1 → (i, j) ≠ (i', j') →
      ∀ k : ℤ, ¬ (k ∈ coveredBy (T.1 (i * grid1 + j)) (T.2 (i * grid1 + j)) l0 l1 P1 ∧
        k ∈ coveredBy (T.1 (i' * grid1 + j')) (T.2 (i' * grid1 + j')) l0 l1 P1)) ∧
    (∀ (U U0 : ℤ → ℚ) (u : ℕ) (F : Family) (k : ℤ), 0 ≤ k → k < P0 * P1 →
      gatherv (scatterv U T.2 grid1 P1 l0 l1 u F) u T.2 grid0 grid1 P1 l0 l1 U0 k = U k) := by
  have hl0p : 1 ≤ l0 := by rw [hl0]; exact localDim_pos global0 grid0 hg0 hp0
  have hl1p : 1 ≤ l1 := by rw [hl1]; exact localDim_pos global1 grid1 hg1 hp1
  obtain ⟨hfit0, hfit1⟩ := fits_axes _ _ _ (one_le_prod _ _ hp0 hl0p) (one_le_prod _ _ hp1 hl1p) hfit
  refine table_tiles_of l0 l1 grid0 grid1 P0 P1 T hl0p hl1p hp1 ?_ ?_ ?_
  · rw [hP0, hl0]; rw [hl0] at hfit0; exact paddedDim_eq global0 grid0 hg0 hp0 hfit0
  · rw [hP1, hl1]; rw [hl1] at hfit1; exact paddedDim_eq global1 grid1 hg1 hp1 hfit1
  · intro i j h1 h2 h3 h4
    rw [hT]
    exact buildTables_apply l0 l1 grid0 grid1 init i j hl0p hl1p hfit h1 h2 h3 h4

/-- C10 amended, at `global = (3, 5)` on a `2 × 2` process grid: `local = (2, 3)`,
`global_padded = (4, 6)`; process `(1, 1)` has offset 15, and the gather after
the scatter restores the cell of index 23. -/
theorem table_tiles_padded_witness :
    (1 : ℤ) ≤ 3 ∧ (1 : ℤ) ≤ 5 ∧ (1 : ℤ) ≤ 2 ∧
    (2 : ℤ) = localDim 3 2 ∧ (3 : ℤ) = localDim 5 2 ∧
    (4 : ℤ) = paddedDim 3 2 ∧ (6 : ℤ) = paddedDim 5 2 ∧
    ((2 : ℤ) * 2) * (2 * 3) ≤ 2147483647 ∧
    (buildTables 2 3 2 2 (fun _ => 0, fun _ => 0)).2 (1 * 2 + 1) = 2 * 3 * 2 * 1 + 3 * 1 ∧
    gatherv
      (scatterv (fun k => (k : ℚ)) (buildTables 2 3 2 2 (fun _ => 0, fun _ => 0)).2 2
        6 2 3 0 (fun _ _ => sampleMem)) 0
      (buildTables 2 3 2 2 (fun _ => 0, fun _ => 0)).2 2 2 6 2 3 (fun _ => 0) 23 =
        ((23 : ℤ) : ℚ) :=
  ⟨by decide, by decide, by decide, by decide, by decide, by decide, by decide, by decide,
    ((table_tiles_padded 3 5 2 2 (by decide) (by decide) (by decide) (by decide)
      (fun _ => 0, fun _ => 0) 2 3 4 6 _ (by decide) (by decide) (by decide) (by decide)
      rfl (by decide)).1 1 1 (by decide) (by decide) (by decide) (by decide)).2.1,
    (table_tiles_padded 3 5 2 2 (by decide) (by decide) (by decide) (by decide)
      (fun _ => 0, fun _ => 0) 2 3 4 6 _ (by decide) (by decide) (by decide) (by decide)
      rfl (by decide)).2.2.2.2 (fun k => (k : ℚ)) (fun _ => 0) 0
      (fun _ _ => sampleMem) 23 (by decide) (by decide)⟩

end RedBlackMPI

